import Mathlib

set_option maxHeartbeats 1000000

/-!
Verification of the markdown/HTML span splitter in
`IPython/nbconvert/filters/markdown.py` (class `MarkdownSplitParser` and the
dispatcher `extended_markdown2latex`).

The Python class stores its spans as heterogeneous Python lists such as
`['html', 0, 5, '<br/>']`; we mirror them as lists of `PyElem`.  The class is
driven by the standard-library `HTMLParser` tokenizer, which is not part of
this repository; following the specification, the tokenizer is modelled
abstractly as a stream of start-tag / end-tag / self-closing-tag / data events
carrying (line, column) positions, constrained by a validity predicate on the
token widths (`validTok`).  Everything the repository's own code does --
`get_offset`, the four handlers, `feed` including its final text-annotation
loop with Python's live-iterator semantics, and the dispatch loop of
`extended_markdown2latex` -- is embedded faithfully, including the
`IndexError` behaviour of `list.pop()` / `list[-1]` on empty lists and the
fact that `opentags` and `splitlist` are class attributes shared between
parser instances.
-/

/-- A Python value stored in one of the raw span lists built by the source
(`['html', 0, 5, '<br/>']`): either a string or a nonnegative integer. -/
inductive PyElem
  | s (v : List Char)
  | n (v : Nat)
deriving DecidableEq, Repr

/-- A raw span, mirroring the Python list `['html', start]` that grows to
`['html', start, end, text]` during `feed`. -/
abbrev RawSpan := List PyElem

/-- Runtime errors raised by the embedded Python code: `IndexError` from list
indexing / `pop` on empty lists, `TypeError` from using a non-integer as a
slice bound or a non-string as converter input. -/
inductive Err
  | indexError
  | typeError
deriving DecidableEq, Repr

/-- Python slicing `data[a:b]` for nonnegative bounds (out-of-range bounds
clamp, `a >= b` gives the empty string). -/
def pySlice (data : List Char) (a b : Nat) : List Char :=
  (data.take b).drop a

/-- The source's `self.splitlist[-1].append(e)`: `IndexError` on an empty
list, otherwise extends the last element in place. -/
def appendLast : List RawSpan → PyElem → Except Err (List RawSpan)
  | [], _ => .error .indexError
  | [x], e => .ok [x ++ [e]]
  | x :: y :: t, e => do
      let r ← appendLast (y :: t) e
      pure (x :: r)

/-- The source's `self.opentags.pop()`: removes the last element,
`IndexError` on an empty list. -/
def pyPop : List α → Except Err (List α)
  | [] => .error .indexError
  | [_] => .ok []
  | x :: y :: t => do
      let r ← pyPop (y :: t)
      pure (x :: r)

/-- Python `str.find('\n', start)`: index of the first newline at position
`start` or later; `none` stands for Python's `-1`. -/
def findNLFrom : List Char → Nat → Option Nat
  | [], _ => none
  | c :: t, 0 => if c = '\n' then some 0 else (findNLFrom t 0).map (· + 1)
  | _ :: t, s + 1 => (findNLFrom t s).map (· + 1)

/-- One iteration of `get_offset`'s loop: `pos = self.data.find('\n',pos)+1`
(Python's `-1 + 1 = 0` when no newline is found). -/
def nextLineStart (data : List Char) (pos : Nat) : Nat :=
  match findNLFrom data pos with
  | some j => j + 1
  | none => 0

/-- The loop `for i in range(lin-1): pos = self.data.find('\n',pos) + 1`
of `get_offset`, iterated `k` times. -/
def getOffsetLoop (data : List Char) : Nat → Nat → Nat
  | 0, pos => pos
  | k + 1, pos => getOffsetLoop data k (nextLineStart data pos)

/-- The state of one `MarkdownSplitParser`: the attributes `opentags`,
`splitlist`, `setag`, `datag` of the source class, plus `self.data` which
`feed` assigns.  (In the source `opentags` and `splitlist` are *class*
attributes; sharing between instances is modelled by `newParser` below.) -/
structure MarkdownSplitParser where
  opentags : List (List Char)
  splitlist : List RawSpan
  setag : Bool
  datag : Bool
  data : List Char
deriving DecidableEq, Repr

/-- `get_offset`: converts the tokenizer's reported (line, column) pair into
an absolute offset into `self.data` by skipping `lin - 1` newlines. -/
def get_offset (s : MarkdownSplitParser) (lin offset : Nat) : Nat :=
  getOffsetLoop s.data (lin - 1) 0 + offset

/-- `handle_starttag`: `img` tags are ignored entirely; otherwise at nesting
depth 0 a pending markdown run or self-closing region is closed at the tag's
offset and a new `['html', pos]` region is opened; the tag is pushed on
`opentags`.  (The `attrs` argument of the source is unused and omitted.) -/
def handle_starttag (s : MarkdownSplitParser) (tag : List Char) (lin col : Nat) :
    Except Err MarkdownSplitParser := do
  if tag = "img".data then
    pure s
  else
    let s ← do
      if s.opentags.length = 0 then
        let pos := get_offset s lin col
        let s ← do
          if s.datag || s.setag then
            let sl ← appendLast s.splitlist (.n pos)
            pure { s with splitlist := sl, datag := false, setag := false }
          else
            pure s
        pure { s with splitlist := s.splitlist ++ [[.s "html".data, .n pos]] }
      else
        pure s
    pure { s with opentags := s.opentags ++ [tag] }

/-- `handle_endtag`: pops `opentags` (IndexError when empty) and, when depth
returns to 0, closes the html region at `pos + len(tag) + 3`. -/
def handle_endtag (s : MarkdownSplitParser) (tag : List Char) (lin col : Nat) :
    Except Err MarkdownSplitParser := do
  let ot ← pyPop s.opentags
  let s := { s with opentags := ot }
  if s.opentags.length = 0 then
    let pos := get_offset s lin col
    let sl ← appendLast s.splitlist (.n (pos + tag.length + 3))
    pure { s with splitlist := sl }
  else
    pure s

/-- `handle_startendtag`: at depth 0 closes a pending markdown run (but not a
pending self-closing region), sets `setag` and opens a new `['html', pos]`
region.  The tag name and attrs are unused by the source. -/
def handle_startendtag (s : MarkdownSplitParser) (_tag : List Char) (lin col : Nat) :
    Except Err MarkdownSplitParser := do
  if s.opentags.length = 0 then
    let pos := get_offset s lin col
    let s ← do
      if s.datag then
        let sl ← appendLast s.splitlist (.n pos)
        pure { s with splitlist := sl, datag := false }
      else
        pure s
    pure { s with setag := true, splitlist := s.splitlist ++ [[.s "html".data, .n pos]] }
  else
    pure s

/-- `handle_data`: at depth 0 when no markdown run is open, closes a pending
self-closing region and opens a new `['markdown', pos]` run. -/
def handle_data (s : MarkdownSplitParser) (lin col : Nat) :
    Except Err MarkdownSplitParser := do
  if s.opentags.length = 0 && !s.datag then
    let pos := get_offset s lin col
    let s ← do
      if s.setag then
        let sl ← appendLast s.splitlist (.n pos)
        pure { s with splitlist := sl, setag := false }
      else
        pure s
    pure { s with splitlist := s.splitlist ++ [[.s "markdown".data, .n pos]], datag := true }
  else
    pure s

/-- Modelled from the spec: one event reported by the external HTML
tokenizer, carrying the (line, column) position that `HTMLParser.getpos`
would report.  The data payload of a data event is not carried because
`handle_data` ignores it. -/
inductive Event
  | starttag (tag : List Char) (lin col : Nat)
  | endtag (tag : List Char) (lin col : Nat)
  | startendtag (tag : List Char) (lin col : Nat)
  | dataEv (lin col : Nat)
deriving DecidableEq, Repr

/-- Dispatch of one tokenizer event to the corresponding handler override. -/
def step (s : MarkdownSplitParser) : Event → Except Err MarkdownSplitParser
  | .starttag t l c => handle_starttag s t l c
  | .endtag t l c => handle_endtag s t l c
  | .startendtag t l c => handle_startendtag s t l c
  | .dataEv l c => handle_data s l c

/-- `HTMLParser.feed`'s event loop: deliver each event to its handler. -/
def runEvents : MarkdownSplitParser → List Event → Except Err MarkdownSplitParser
  | s, [] => .ok s
  | s, e :: es => do runEvents (← step s e) es

/-- Python negative indexing `l[-k]` (for `k ≥ 1`): `IndexError` when the
list is shorter than `k`. -/
def pyNegGet (l : List α) (k : Nat) : Except Err α :=
  if h : 1 ≤ k ∧ k ≤ l.length then
    .ok (l.get ⟨l.length - k, by omega⟩)
  else
    .error .indexError

/-- The final loop of `feed`:

    num_pop = 0
    for i,li in enumerate(self.splitlist):
        j = i - num_pop
        self.splitlist[j].append(self.data[self.splitlist[j][1]:self.splitlist[j][2]])
        if li[-3] == li[-2]:
            self.splitlist.pop(i)
            num_pop += 1

modelled with Python's live-iterator semantics: the iteration counter `k`
indexes the *current* list, which shrinks on `pop`; `li` is the element at
index `k` after the in-place append (the append targets index `j`, the same
object exactly when `j = k`).  The first argument is recursion fuel bounding
the number of remaining iterations; `feed` passes `l.length`, which always
suffices because `l.length - k` strictly decreases per iteration, so the
fuel-exhausted branch is unreachable from `feed`. -/
def textLoop (data : List Char) : Nat → List RawSpan → Nat → Nat →
    Except Err (List RawSpan)
  | fuel + 1, l, k, np =>
    if k < l.length then
      let j := k - np
      match l.get? j with
      | none => .error .indexError
      | some sj => do
          let a ← (match sj.get? 1 with
                   | some (.n a) => Except.ok a
                   | some (.s _) => Except.error Err.typeError
                   | none => Except.error Err.indexError)
          let b ← (match sj.get? 2 with
                   | some (.n b) => Except.ok b
                   | some (.s _) => Except.error Err.typeError
                   | none => Except.error Err.indexError)
          let sj2 := sj ++ [.s (pySlice data a b)]
          let l2 := l.set j sj2
          let li := l2.getD k []
          let e3 ← pyNegGet li 3
          let e2 ← pyNegGet li 2
          if e3 = e2 then
            textLoop data fuel (l2.eraseIdx k) (k + 1) (np + 1)
          else
            textLoop data fuel l2 (k + 1) np
    else
      .ok l
  | 0, l, k, _ =>
    if k < l.length then .error .indexError else .ok l

/-- `MarkdownSplitParser.feed`: assigns `self.data`, runs the tokenizer
events, closes the last span at `len(data)` when it is still open (after
`self.splitlist[-1]`, which raises on an empty list), then runs the
text-annotation/empty-span loop. -/
def feed (s : MarkdownSplitParser) (data : List Char) (events : List Event) :
    Except Err MarkdownSplitParser := do
  let s := { s with data := data }
  let s ← runEvents s events
  let last ← (match s.splitlist.getLast? with
              | some x => Except.ok x
              | none => Except.error Err.indexError)
  let s ← do
    if last.length = 2 then
      let sl ← appendLast s.splitlist (.n data.length)
      pure { s with splitlist := sl }
    else
      pure s
  let sl ← textLoop data s.splitlist.length s.splitlist 0 0
  pure { s with splitlist := sl }

/-- The class attributes of `MarkdownSplitParser` that live on the *class*
object and are therefore shared between instances: `opentags` and
`splitlist` (both are mutable lists mutated through `self`). -/
structure ClassState where
  opentags : List (List Char)
  splitlist : List RawSpan
deriving DecidableEq, Repr

/-- Instantiating `MarkdownSplitParser()` under Python semantics: the new
instance reads the shared class-level `opentags` and `splitlist`, while the
boolean flags are only ever *assigned* through `self` and hence always start
from the class defaults `False`. -/
def newParser (c : ClassState) : MarkdownSplitParser :=
  { opentags := c.opentags, splitlist := c.splitlist,
    setag := false, datag := false, data := [] }

/-- The pristine class state before any instance has run. -/
def freshClass : ClassState := ⟨[], []⟩

/-- One splitting invocation as performed by `extended_markdown2latex`:
instantiate a parser over the current class state, feed it the source, and
return the updated class state together with the produced span list. -/
def invoke (c : ClassState) (data : List Char) (events : List Event) :
    Except Err (ClassState × List RawSpan) := do
  let s ← feed (newParser c) data events
  pure (⟨s.opentags, s.splitlist⟩, s.splitlist)

/-- Feeding a source to a parser instantiated over pristine class state. -/
def feedFresh (data : List Char) (events : List Event) :
    Except Err MarkdownSplitParser :=
  feed (newParser freshClass) data events

/-- The dispatch loop of `extended_markdown2latex` over a produced span
list, with the external converters `markdown2latex` and `html2latex` passed
as collaborator functions: markdown spans go to the first, html spans to the
second, any other tag type falls into the `pass` branch. -/
def extended_markdown2latex (md2l h2l : List Char → List Char) :
    List RawSpan → Except Err (List Char)
  | [] => .ok []
  | sub :: rest => do
      let k ← (match sub.get? 0 with
               | some v => Except.ok v
               | none => Except.error Err.indexError)
      if k = PyElem.s "markdown".data then
        let t ← (match sub.get? 3 with
                 | some (.s t) => Except.ok t
                 | some (.n _) => Except.error Err.typeError
                 | none => Except.error Err.indexError)
        let r ← extended_markdown2latex md2l h2l rest
        pure (md2l t ++ r)
      else if k = PyElem.s "html".data then
        let t ← (match sub.get? 3 with
                 | some (.s t) => Except.ok t
                 | some (.n _) => Except.error Err.typeError
                 | none => Except.error Err.indexError)
        let r ← extended_markdown2latex md2l h2l rest
        pure (h2l t ++ r)
      else
        extended_markdown2latex md2l h2l rest

/-- Modelled from the spec: one token of the external HTML tokenizer
(`HTMLParser`), which is not part of this repository.  Per the spec the
tokenizer reports, in order of appearance, start-tag / end-tag /
self-closing-tag / literal-data events; a token occupies `width` source
characters starting at its reported position, and a closing tag is written
exactly `</name>` (the spec's boundary rule `length(name) + 3`). -/
inductive Tok
  | startT (name : List Char) (w : Nat)
  | endT (name : List Char)
  | startendT (name : List Char) (w : Nat)
  | textT (w : Nat)
deriving DecidableEq, Repr

/-- Modelled from the spec: the number of source characters a token spans. -/
def Tok.width : Tok → Nat
  | .startT _ w => w
  | .endT n => n.length + 3
  | .startendT _ w => w
  | .textT w => w

/-- Modelled from the spec: well-formedness of a single token: nonempty tag
names, a start tag at least `<name>` wide, a self-closing tag at least
`<name/>` wide, a data run nonempty. -/
def tokWF : Tok → Bool
  | .startT n w => decide (n ≠ []) && decide (n.length + 2 ≤ w)
  | .endT n => decide (n ≠ [])
  | .startendT n w => decide (n ≠ []) && decide (n.length + 3 ≤ w)
  | .textT w => decide (1 ≤ w)

/-- Modelled from the spec: `validToksFrom data p toks` holds when the
tokens are well formed and exactly tile `[p, length data)`. -/
def validToksFrom (data : List Char) : Nat → List Tok → Bool
  | p, [] => decide (p = data.length)
  | p, t :: ts => tokWF t && validToksFrom data (p + t.width) ts

/-- Modelled from the spec: a valid tokenization of the whole source. -/
def validTok (data : List Char) (toks : List Tok) : Bool :=
  validToksFrom data 0 toks

/-- Modelled from the spec: the 1-based line number `HTMLParser.getpos`
reports for absolute offset `p` of the source. -/
def lineAt (data : List Char) : Nat → Nat
  | 0 => 1
  | p + 1 => (if data[p]? = some '\n' then 1 else 0) + lineAt data p

/-- Modelled from the spec: the 0-based column `HTMLParser.getpos` reports
for absolute offset `p` (characters since the last newline). -/
def colAt (data : List Char) : Nat → Nat
  | 0 => 0
  | p + 1 => if data[p]? = some '\n' then 0 else colAt data p + 1

/-- Modelled from the spec: the event stream the tokenizer delivers for a
token list starting at absolute offset `p`, with positions reported as
(line, column) pairs. -/
def eventsAux (data : List Char) : Nat → List Tok → List Event
  | _, [] => []
  | p, t :: ts =>
    (match t with
     | .startT n _ => Event.starttag n (lineAt data p) (colAt data p)
     | .endT n => Event.endtag n (lineAt data p) (colAt data p)
     | .startendT n _ => Event.startendtag n (lineAt data p) (colAt data p)
     | .textT _ => Event.dataEv (lineAt data p) (colAt data p)) ::
    eventsAux data (p + t.width) ts

/-- Modelled from the spec: the event stream for a tokenization of the
whole source. -/
def eventsOf (data : List Char) (toks : List Tok) : List Event :=
  eventsAux data 0 toks

/-- `imgSafe s events` holds when no `<img>` start-tag event is delivered
while the scanner is idle at depth 0 (no open tag, no markdown run, no
pending self-closing region) -- the one situation in which the source's
special-casing of `img` leaves a coverage gap. -/
def imgSafe : MarkdownSplitParser → List Event → Bool
  | _, [] => true
  | s, e :: es =>
    (match e with
     | .starttag n _ _ =>
       !(n = "img".data && s.opentags.length = 0 && !s.datag && !s.setag)
     | _ => true) &&
    (match step s e with
     | .ok s2 => imgSafe s2 es
     | .error _ => true)

/-- Span kinds actually emitted by the splitter. -/
def kindOK (k : List Char) : Prop := k = "markdown".data ∨ k = "html".data

/-- Shape extractor for a closed (3-element) raw span `[kind, a, b]`. -/
def spanCAB : RawSpan → Option (List Char × Nat × Nat)
  | [.s k, .n a, .n b] => some (k, a, b)
  | _ => none

/-- Shape extractor for a final (4-element) raw span `[kind, a, b, text]`. -/
def spanKABT : RawSpan → Option (List Char × Nat × Nat × List Char)
  | [.s k, .n a, .n b, .s tx] => some (k, a, b, tx)
  | _ => none

/-- A closed raw span `[kind, a, b]` with `a < b` (shape only). -/
def closedSpan (sp : RawSpan) : Prop :=
  ∃ k a b, sp = [.s k, .n a, .n b] ∧ a < b

/-- A finished (closed, not yet text-annotated) raw span. -/
def properSpan (sp : RawSpan) : Prop :=
  ∃ k a b, sp = [.s k, .n a, .n b] ∧ a < b ∧ kindOK k

/-- A still-open raw span whose start lies strictly before `p`. -/
def openSpanLt (p : Nat) (sp : RawSpan) : Prop :=
  ∃ k a, sp = [.s k, .n a] ∧ a < p ∧ kindOK k

/-- Contiguous chain check for closed 3-element raw spans: starting at
offset `c`, each span must be `[kind, c, b]` with `c < b`, and the chain
returns the final offset. -/
def chainEnd : Nat → List RawSpan → Option Nat
  | c, [] => some c
  | c, sp :: t =>
    match spanCAB sp with
    | some (_, a, b) => if a = c ∧ a < b then chainEnd b t else none
    | none => none

/-- Contiguous chain check for final 4-element (text-annotated) spans. -/
def spanChain4 : Nat → List RawSpan → Option Nat
  | c, [] => some c
  | c, sp :: t =>
    match spanKABT sp with
    | some (_, a, b, _) => if a = c ∧ a < b then spanChain4 b t else none
    | none => none

/-- Concatenation of the text fields of a final span list, in order. -/
def spansText : List RawSpan → List Char
  | [] => []
  | sp :: t =>
    (match spanKABT sp with
     | some (_, _, _, tx) => tx
     | none => []) ++ spansText t

/-- Text annotation of one closed raw span, as performed by `feed`'s final
loop on the non-degenerate path. -/
def texAp (data : List Char) : RawSpan → RawSpan
  | [.s k, .n a, .n b] => [.s k, .n a, .n b, .s (pySlice data a b)]
  | sp => sp

/-- The parser state at the start of `feed`'s event loop for a fresh
instance over pristine class state. -/
def startState (data : List Char) : MarkdownSplitParser :=
  { newParser freshClass with data := data }

/-- Weak scan invariant at next-event offset `p`: every recorded span is
either finished or still open with start before `p`, and whenever a markdown
run / self-closing region / tag nesting is pending, the *last* span is the
open one. -/
def wkInv (s : MarkdownSplitParser) (p : Nat) : Prop :=
  (∀ sp ∈ s.splitlist, properSpan sp ∨ openSpanLt p sp) ∧
  ((s.datag = true ∨ s.setag = true ∨ s.opentags ≠ []) →
    ∃ init k a, s.splitlist = init ++ [[.s k, .n a]] ∧ a < p ∧ kindOK k) ∧
  (s.opentags ≠ [] → s.datag = false ∧ s.setag = false)

/-- Idle scan state at offset `p`: nothing open and the finished spans tile
`[0, p)` exactly. -/
def idleSt (s : MarkdownSplitParser) (p : Nat) : Prop :=
  s.opentags = [] ∧ s.datag = false ∧ s.setag = false ∧
  chainEnd 0 s.splitlist = some p

/-- Open scan state at offset `p`: the finished spans tile `[0, a)` and one
span `[kind, a]` with `a < p` is open as the last span while exactly one of
the three "something pending" conditions holds. -/
def openSt (s : MarkdownSplitParser) (p : Nat) : Prop :=
  ∃ init k a, s.splitlist = init ++ [[.s k, .n a]] ∧
    chainEnd 0 init = some a ∧ a < p ∧
    ((s.datag = true ∧ s.setag = false ∧ s.opentags = [] ∧ k = "markdown".data) ∨
     (s.setag = true ∧ s.datag = false ∧ s.opentags = [] ∧ k = "html".data) ∨
     (s.opentags ≠ [] ∧ s.datag = false ∧ s.setag = false ∧ k = "html".data))

/-- Doomed scan state: a still-open two-element span is stranded in
non-final position (this happens after two consecutive top-level
self-closing tags); every span before it is finished, so `feed`'s text loop
necessarily raises IndexError when it reaches the stranded span. -/
def doomedSt (s : MarkdownSplitParser) : Prop :=
  ∃ l1 k a l2, s.splitlist = l1 ++ ([.s k, .n a] : RawSpan) :: l2 ∧ l2 ≠ [] ∧
    ∀ sp ∈ l1, closedSpan sp

/-- Strong scan invariant for the coverage proof. -/
def strongInv (s : MarkdownSplitParser) (p : Nat) : Prop :=
  idleSt s p ∨ openSt s p ∨ doomedSt s

/-- The shape of every span emitted by a successful `feed`. -/
def finalShape (data : List Char) (sp : RawSpan) : Prop :=
  ∃ k a b, sp = [.s k, .n a, .n b, .s (pySlice data a b)] ∧ a < b ∧ kindOK k

/-- Modelled from the spec: the dispatcher's intended output, "the ordered
concatenation of each span's conversion result with no injected
separators", markdown spans through the markdown converter, html spans
through the html converter, anything else contributing nothing. -/
def specConcat (md2l h2l : List Char → List Char) : List RawSpan → List Char
  | [] => []
  | sp :: t =>
    (match sp with
     | [.s k, .n _, .n _, .s tx] =>
       if k = "markdown".data then md2l tx
       else if k = "html".data then h2l tx
       else []
     | _ => []) ++ specConcat md2l h2l t

/-! ### Utility lemmas -/

theorem appendLast_snoc (xs : List RawSpan) (x : RawSpan) (e : PyElem) :
    appendLast (xs ++ [x]) e = .ok (xs ++ [x ++ [e]]) := by
  induction xs with
  | nil => rfl
  | cons y ys ih =>
    cases ys with
    | nil => simp [appendLast, ih]
    | cons z zs =>
      simp only [List.cons_append, appendLast, List.append_eq]
      rw [List.cons_append] at ih
      rw [ih]
      rfl

theorem pyPop_snoc (xs : List α) (x : α) :
    pyPop (xs ++ [x]) = .ok xs := by
  induction xs with
  | nil => rfl
  | cons y ys ih =>
    cases ys with
    | nil => simp [pyPop, ih]
    | cons z zs =>
      simp only [List.cons_append, pyPop, List.append_eq]
      rw [List.cons_append] at ih
      rw [ih]
      rfl

theorem runEvents_append (s : MarkdownSplitParser) (es1 es2 : List Event) :
    runEvents s (es1 ++ es2) =
      (runEvents s es1).bind (fun s2 => runEvents s2 es2) := by
  induction es1 generalizing s with
  | nil => rfl
  | cons e es ih =>
    simp only [List.cons_append, runEvents]
    cases step s e with
    | error err => rfl
    | ok s2 => exact ih s2

/-! ### Correctness of `get_offset` on positions reported as (line, column) -/

theorem lineAt_pos (data : List Char) (p : Nat) : 1 ≤ lineAt data p := by
  induction p with
  | zero => simp [lineAt]
  | succ q ih => simp only [lineAt]; omega

theorem getOffsetLoop_succ (data : List Char) (k q : Nat) :
    getOffsetLoop data (k + 1) q = nextLineStart data (getOffsetLoop data k q) := by
  induction k generalizing q with
  | zero => rfl
  | succ k ih =>
    have h1 : getOffsetLoop data (k + 2) q
        = getOffsetLoop data (k + 1) (nextLineStart data q) := rfl
    rw [h1, ih]
    rfl

theorem findNLFrom_spec (data : List Char) (st m : Nat)
    (hle : st ≤ m) (hm : data[m]? = some '\n')
    (hno : ∀ i, st ≤ i → i < m → data[i]? ≠ some '\n') :
    findNLFrom data st = some m := by
  induction data generalizing st m with
  | nil => simp at hm
  | cons c t ih =>
    cases st with
    | zero =>
      cases m with
      | zero =>
        simp at hm
        simp [findNLFrom, hm]
      | succ m' =>
        have hc : c ≠ '\n' := by
          have := hno 0 (by omega) (by omega)
          simpa using this
        have ht : findNLFrom t 0 = some m' := by
          apply ih 0 m' (by omega)
          · simpa using hm
          · intro i hi1 hi2
            have := hno (i + 1) (by omega) (by omega)
            simpa using this
        simp [findNLFrom, hc, ht]
    | succ sp =>
      cases m with
      | zero => omega
      | succ m' =>
        have ht : findNLFrom t sp = some m' := by
          apply ih sp m' (by omega)
          · simpa using hm
          · intro i hi1 hi2
            have := hno (i + 1) (by omega) (by omega)
            simpa using this
        simp [findNLFrom, ht]

theorem offset_invariant (data : List Char) (p : Nat) (hp : p ≤ data.length) :
    getOffsetLoop data (lineAt data p - 1) 0 = p - colAt data p ∧
    colAt data p ≤ p ∧
    (∀ i, p - colAt data p ≤ i → i < p → data[i]? ≠ some '\n') := by
  induction p with
  | zero =>
    exact ⟨rfl, Nat.le_refl 0, fun i h1 h2 => absurd h2 (by omega)⟩
  | succ q ih =>
    obtain ⟨ih1, ih2, ih3⟩ := ih (by omega)
    have hq : q < data.length := by omega
    obtain ⟨ch, hch⟩ : ∃ ch, data[q]? = some ch :=
      ⟨data[q], List.getElem?_eq_getElem hq⟩
    by_cases hnl : ch = '\n'
    · subst hnl
      have hline : lineAt data (q + 1) = 1 + lineAt data q := by
        simp [lineAt, hch]
      have hcol : colAt data (q + 1) = 0 := by
        simp [colAt, hch]
      have hfind : findNLFrom data (q - colAt data q) = some q :=
        findNLFrom_spec data (q - colAt data q) q (by omega) hch ih3
      have hl1 : 1 ≤ lineAt data q := lineAt_pos data q
      have hgo : getOffsetLoop data (lineAt data q) 0 = q + 1 := by
        have heq : lineAt data q = (lineAt data q - 1) + 1 := by omega
        rw [heq, getOffsetLoop_succ, ih1]
        simp [nextLineStart, hfind]
      have hm1 : lineAt data (q + 1) - 1 = lineAt data q := by omega
      refine ⟨?_, by omega, ?_⟩
      · rw [hm1, hgo, hcol]
        omega
      · intro i h1 h2
        rw [hcol] at h1
        omega
    · have hline : lineAt data (q + 1) = lineAt data q := by
        simp [lineAt, hch, hnl]
      have hcol : colAt data (q + 1) = colAt data q + 1 := by
        simp [colAt, hch, hnl]
      refine ⟨?_, by omega, ?_⟩
      · rw [hline, ih1, hcol]
        omega
      · intro i h1 h2
        rw [hcol] at h1
        rcases Nat.lt_or_ge i q with hlt | hge
        · exact ih3 i (by omega) hlt
        · have hiq : i = q := by omega
          subst hiq
          rw [hch]
          simpa using hnl

theorem get_offset_correct (s : MarkdownSplitParser) (p : Nat)
    (hp : p ≤ s.data.length) :
    get_offset s (lineAt s.data p) (colAt s.data p) = p := by
  obtain ⟨h1, h2, _⟩ := offset_invariant s.data p hp
  simp only [get_offset, h1]
  omega

/-! ### Tokenization facts -/

theorem tokWF_width (t : Tok) (h : tokWF t = true) : 1 ≤ t.width := by
  cases t with
  | startT n w => simp [tokWF] at h; simp [Tok.width]; omega
  | endT n => simp [Tok.width]
  | startendT n w => simp [tokWF] at h; simp [Tok.width]; omega
  | textT w => simp [tokWF] at h; simpa [Tok.width] using h

theorem validToksFrom_le (data : List Char) (toks : List Tok) :
    ∀ p, validToksFrom data p toks = true → p ≤ data.length := by
  induction toks with
  | nil =>
    intro p h
    simp [validToksFrom] at h
    omega
  | cons t ts ih =>
    intro p h
    simp only [validToksFrom, Bool.and_eq_true] at h
    have := ih (p + t.width) h.2
    omega

/-! ### Weak invariant: monotonicity and preservation -/

theorem openSpanLt_mono (p p2 : Nat) (hle : p ≤ p2) (sp : RawSpan)
    (h : openSpanLt p sp) : openSpanLt p2 sp := by
  obtain ⟨k, a, h1, h2, h3⟩ := h
  exact ⟨k, a, h1, by omega, h3⟩

theorem wkInv_mono (s : MarkdownSplitParser) (p p2 : Nat)
    (h : wkInv s p) (hle : p ≤ p2) : wkInv s p2 := by
  obtain ⟨h1, h2, h3⟩ := h
  refine ⟨?_, ?_, h3⟩
  · intro sp hsp
    rcases h1 sp hsp with hp | ho
    · exact Or.inl hp
    · exact Or.inr (openSpanLt_mono p p2 hle sp ho)
  · intro hc
    obtain ⟨init, k, a, ha, hlt, hk⟩ := h2 hc
    exact ⟨init, k, a, ha, by omega, hk⟩

theorem wkInv_start (data : List Char) : wkInv (startState data) 0 := by
  refine ⟨?_, ?_, ?_⟩
  · intro sp hsp
    simp [startState, newParser, freshClass] at hsp
  · intro hc
    simp [startState, newParser, freshClass] at hc
  · intro hc
    simp [startState, newParser, freshClass] at hc

theorem wkInv_handle_starttag (s : MarkdownSplitParser) (tag : List Char)
    (lin col p p2 : Nat) (hw : wkInv s p)
    (hpos : get_offset s lin col = p) (hpp : p < p2)
    (s2 : MarkdownSplitParser) (h : handle_starttag s tag lin col = .ok s2) :
    wkInv s2 p2 ∧ s2.data = s.data := by
  by_cases himg : tag = "img".data
  · simp [handle_starttag, himg, pure, Except.pure] at h
    subst h
    exact ⟨wkInv_mono s p p2 hw (by omega), rfl⟩
  · by_cases hot : s.opentags.length = 0
    · have hotnil : s.opentags = [] := List.length_eq_zero.mp hot
      by_cases hflag : (s.datag || s.setag) = true
      · have hor : s.datag = true ∨ s.setag = true := by simpa using hflag
        obtain ⟨init, k, a, hsl, ha, hk⟩ := hw.2.1 (hor.imp id Or.inl)
        have hrun : handle_starttag s tag lin col =
            .ok { s with
                  opentags := [tag],
                  splitlist := (init ++ [[.s k, .n a, .n p]]) ++
                    [[.s "html".data, .n p]],
                  datag := false, setag := false } := by
          simp [handle_starttag, himg, hot, hflag, hpos, hsl, appendLast_snoc,
            hotnil, pure, Except.pure, Except.instMonad, Except.bind]
        rw [hrun] at h
        obtain rfl : _ = s2 := Except.ok.inj h
        refine ⟨⟨?_, ?_, ?_⟩, rfl⟩
        · intro sp hsp
          simp only [List.mem_append, List.mem_singleton] at hsp
          rcases hsp with (hsp | hsp) | hsp
          · have := hw.1 sp (by rw [hsl]; exact List.mem_append_left _ hsp)
            rcases this with hp | ho
            · exact Or.inl hp
            · exact Or.inr (openSpanLt_mono p p2 (by omega) sp ho)
          · subst hsp
            exact Or.inl ⟨k, a, p, rfl, ha, hk⟩
          · subst hsp
            exact Or.inr ⟨"html".data, p, rfl, hpp, Or.inr rfl⟩
        · intro _
          exact ⟨init ++ [[.s k, .n a, .n p]], "html".data, p, rfl, hpp,
            Or.inr rfl⟩
        · intro _
          exact ⟨rfl, rfl⟩
      · have hrun : handle_starttag s tag lin col =
            .ok { s with
                  opentags := [tag],
                  splitlist := s.splitlist ++ [[.s "html".data, .n p]] } := by
          simp [handle_starttag, himg, hot, hflag, hpos, hotnil, pure,
            Except.pure, Except.instMonad, Except.bind]
        rw [hrun] at h
        obtain rfl : _ = s2 := Except.ok.inj h
        refine ⟨⟨?_, ?_, ?_⟩, rfl⟩
        · intro sp hsp
          simp only [List.mem_append, List.mem_singleton] at hsp
          rcases hsp with hsp | hsp
          · have := hw.1 sp hsp
            rcases this with hp | ho
            · exact Or.inl hp
            · exact Or.inr (openSpanLt_mono p p2 (by omega) sp ho)
          · subst hsp
            exact Or.inr ⟨"html".data, p, rfl, hpp, Or.inr rfl⟩
        · intro _
          exact ⟨s.splitlist, "html".data, p, rfl, hpp, Or.inr rfl⟩
        · intro _
          simp only [Bool.or_eq_true] at hflag
          push_neg at hflag
          exact ⟨Bool.eq_false_iff.mpr hflag.1, Bool.eq_false_iff.mpr hflag.2⟩
    · have hrun : handle_starttag s tag lin col =
          .ok { s with opentags := s.opentags ++ [tag] } := by
        simp [handle_starttag, himg, hot, pure, Except.pure,
          Except.instMonad, Except.bind]
      rw [hrun] at h
      obtain rfl : _ = s2 := Except.ok.inj h
      have hotne : s.opentags ≠ [] := by
        intro hnil
        exact hot (by simp [hnil])
      refine ⟨⟨?_, ?_, ?_⟩, rfl⟩
      · intro sp hsp
        rcases hw.1 sp hsp with hp | ho
        · exact Or.inl hp
        · exact Or.inr (openSpanLt_mono p p2 (by omega) sp ho)
      · intro _
        obtain ⟨init, k, a, ha, hlt, hk⟩ := hw.2.1 (Or.inr (Or.inr hotne))
        exact ⟨init, k, a, ha, by omega, hk⟩
      · intro _
        exact hw.2.2 hotne

theorem wkInv_handle_endtag (s : MarkdownSplitParser) (tag : List Char)
    (lin col p p2 : Nat) (hw : wkInv s p)
    (hpos : get_offset s lin col = p) (hpp : p < p2)
    (s2 : MarkdownSplitParser) (h : handle_endtag s tag lin col = .ok s2) :
    wkInv s2 p2 ∧ s2.data = s.data := by
  have hpos2 : getOffsetLoop s.data (lin - 1) 0 + col = p := hpos
  rcases List.eq_nil_or_concat s.opentags with hnil | ⟨ot0, lastT, hot⟩
  · simp [handle_endtag, hnil, pyPop, pure, Except.pure, Except.instMonad,
      Except.bind] at h
  · rw [List.concat_eq_append] at hot
    have hotne : s.opentags ≠ [] := by simp [hot]
    have hfl := hw.2.2 hotne
    by_cases hot0 : ot0 = []
    · subst hot0
      obtain ⟨init, k, a, hsl, ha, hk⟩ := hw.2.1 (Or.inr (Or.inr hotne))
      have hrun : handle_endtag s tag lin col =
          .ok { s with
                opentags := [],
                splitlist := init ++
                  [[.s k, .n a, .n (p + tag.length + 3)]] } := by
        simp [handle_endtag, hot, pyPop_snoc, pyPop, hsl, appendLast_snoc,
          get_offset, hpos2, pure, Except.pure, Except.instMonad, Except.bind,
          Except.map]
      rw [hrun] at h
      obtain rfl : _ = s2 := Except.ok.inj h
      refine ⟨⟨?_, ?_, ?_⟩, rfl⟩
      · intro sp hsp
        simp only [List.mem_append, List.mem_singleton] at hsp
        rcases hsp with hsp | hsp
        · have := hw.1 sp (by rw [hsl]; exact List.mem_append_left _ hsp)
          rcases this with hp | ho
          · exact Or.inl hp
          · exact Or.inr (openSpanLt_mono p p2 (by omega) sp ho)
        · subst hsp
          exact Or.inl ⟨k, a, p + tag.length + 3, rfl, by omega, hk⟩
      · intro hc
        rcases hc with hc | hc | hc
        · rw [hfl.1] at hc; cases hc
        · rw [hfl.2] at hc; cases hc
        · exact absurd rfl hc
      · intro hc
        exact absurd rfl hc
    · have hlen : ¬(ot0.length = 0) := by
        simpa [List.length_eq_zero] using hot0
      have hrun : handle_endtag s tag lin col =
          .ok { s with opentags := ot0 } := by
        simp [handle_endtag, hot, pyPop_snoc, hlen, hot0, pure, Except.pure,
          Except.instMonad, Except.bind, Except.map]
      rw [hrun] at h
      obtain rfl : _ = s2 := Except.ok.inj h
      refine ⟨⟨?_, ?_, ?_⟩, rfl⟩
      · intro sp hsp
        rcases hw.1 sp hsp with hp | ho
        · exact Or.inl hp
        · exact Or.inr (openSpanLt_mono p p2 (by omega) sp ho)
      · intro _
        obtain ⟨init, k, a, ha, hlt, hk⟩ := hw.2.1 (Or.inr (Or.inr hotne))
        exact ⟨init, k, a, ha, by omega, hk⟩
      · intro _
        exact hfl

theorem wkInv_handle_startendtag (s : MarkdownSplitParser) (tag : List Char)
    (lin col p p2 : Nat) (hw : wkInv s p)
    (hpos : get_offset s lin col = p) (hpp : p < p2)
    (s2 : MarkdownSplitParser) (h : handle_startendtag s tag lin col = .ok s2) :
    wkInv s2 p2 ∧ s2.data = s.data := by
  by_cases hot : s.opentags.length = 0
  · have hotnil : s.opentags = [] := List.length_eq_zero.mp hot
    by_cases hdg : s.datag = true
    · obtain ⟨init, k, a, hsl, ha, hk⟩ := hw.2.1 (Or.inl hdg)
      have hrun : handle_startendtag s tag lin col =
          .ok { s with
                splitlist := (init ++ [[.s k, .n a, .n p]]) ++
                  [[.s "html".data, .n p]],
                datag := false, setag := true } := by
        simp [handle_startendtag, hot, hdg, hpos, hsl, appendLast_snoc, pure,
          Except.pure, Except.instMonad, Except.bind]
      rw [hrun] at h
      obtain rfl : _ = s2 := Except.ok.inj h
      refine ⟨⟨?_, ?_, ?_⟩, rfl⟩
      · intro sp hsp
        simp only [List.mem_append, List.mem_singleton] at hsp
        rcases hsp with (hsp | hsp) | hsp
        · have := hw.1 sp (by rw [hsl]; exact List.mem_append_left _ hsp)
          rcases this with hp | ho
          · exact Or.inl hp
          · exact Or.inr (openSpanLt_mono p p2 (by omega) sp ho)
        · subst hsp
          exact Or.inl ⟨k, a, p, rfl, ha, hk⟩
        · subst hsp
          exact Or.inr ⟨"html".data, p, rfl, hpp, Or.inr rfl⟩
      · intro _
        exact ⟨init ++ [[.s k, .n a, .n p]], "html".data, p, rfl, hpp,
          Or.inr rfl⟩
      · intro hc
        exact absurd hotnil hc
    · have hrun : handle_startendtag s tag lin col =
          .ok { s with
                splitlist := s.splitlist ++ [[.s "html".data, .n p]],
                setag := true } := by
        simp [handle_startendtag, hot, hdg, hpos, pure, Except.pure,
          Except.instMonad, Except.bind]
      rw [hrun] at h
      obtain rfl : _ = s2 := Except.ok.inj h
      refine ⟨⟨?_, ?_, ?_⟩, rfl⟩
      · intro sp hsp
        simp only [List.mem_append, List.mem_singleton] at hsp
        rcases hsp with hsp | hsp
        · rcases hw.1 sp hsp with hp | ho
          · exact Or.inl hp
          · exact Or.inr (openSpanLt_mono p p2 (by omega) sp ho)
        · subst hsp
          exact Or.inr ⟨"html".data, p, rfl, hpp, Or.inr rfl⟩
      · intro _
        exact ⟨s.splitlist, "html".data, p, rfl, hpp, Or.inr rfl⟩
      · intro hc
        exact absurd hotnil hc
  · have hrun : handle_startendtag s tag lin col = .ok s := by
      simp [handle_startendtag, hot, pure, Except.pure, Except.instMonad,
        Except.bind]
    rw [hrun] at h
    obtain rfl : _ = s2 := Except.ok.inj h
    exact ⟨wkInv_mono s p p2 hw (by omega), rfl⟩

theorem wkInv_handle_data (s : MarkdownSplitParser)
    (lin col p p2 : Nat) (hw : wkInv s p)
    (hpos : get_offset s lin col = p) (hpp : p < p2)
    (s2 : MarkdownSplitParser) (h : handle_data s lin col = .ok s2) :
    wkInv s2 p2 ∧ s2.data = s.data := by
  by_cases hact : (s.opentags.length = 0 && !s.datag) = true
  · have hot : s.opentags.length = 0 := by
      have := (Bool.and_eq_true _ _).mp hact
      exact of_decide_eq_true (by simpa using this.1)
    have hotnil : s.opentags = [] := List.length_eq_zero.mp hot
    have hdg : s.datag = false := by
      have := (Bool.and_eq_true _ _).mp hact
      simpa using this.2
    by_cases hsg : s.setag = true
    · obtain ⟨init, k, a, hsl, ha, hk⟩ := hw.2.1 (Or.inr (Or.inl hsg))
      have hrun : handle_data s lin col =
          .ok { s with
                splitlist := (init ++ [[.s k, .n a, .n p]]) ++
                  [[.s "markdown".data, .n p]],
                setag := false, datag := true } := by
        simp [handle_data, hotnil, hdg, hsg, hpos, hsl, appendLast_snoc, pure,
          Except.pure, Except.instMonad, Except.bind, Except.map]
      rw [hrun] at h
      obtain rfl : _ = s2 := Except.ok.inj h
      refine ⟨⟨?_, ?_, ?_⟩, rfl⟩
      · intro sp hsp
        simp only [List.mem_append, List.mem_singleton] at hsp
        rcases hsp with (hsp | hsp) | hsp
        · have := hw.1 sp (by rw [hsl]; exact List.mem_append_left _ hsp)
          rcases this with hp | ho
          · exact Or.inl hp
          · exact Or.inr (openSpanLt_mono p p2 (by omega) sp ho)
        · subst hsp
          exact Or.inl ⟨k, a, p, rfl, ha, hk⟩
        · subst hsp
          exact Or.inr ⟨"markdown".data, p, rfl, hpp, Or.inl rfl⟩
      · intro _
        exact ⟨init ++ [[.s k, .n a, .n p]], "markdown".data, p, rfl, hpp,
          Or.inl rfl⟩
      · intro hc
        exact absurd hotnil hc
    · have hrun : handle_data s lin col =
          .ok { s with
                splitlist := s.splitlist ++ [[.s "markdown".data, .n p]],
                datag := true } := by
        simp [handle_data, hotnil, hdg, hsg, hpos, pure, Except.pure,
          Except.instMonad, Except.bind, Except.map]
      rw [hrun] at h
      obtain rfl : _ = s2 := Except.ok.inj h
      refine ⟨⟨?_, ?_, ?_⟩, rfl⟩
      · intro sp hsp
        simp only [List.mem_append, List.mem_singleton] at hsp
        rcases hsp with hsp | hsp
        · rcases hw.1 sp hsp with hp | ho
          · exact Or.inl hp
          · exact Or.inr (openSpanLt_mono p p2 (by omega) sp ho)
        · subst hsp
          exact Or.inr ⟨"markdown".data, p, rfl, hpp, Or.inl rfl⟩
      · intro _
        exact ⟨s.splitlist, "markdown".data, p, rfl, hpp, Or.inl rfl⟩
      · intro hc
        exact absurd hotnil hc
  · have hrun : handle_data s lin col = .ok s := by
      simp only [handle_data]
      split
      · rename_i hc
        exact absurd hc hact
      · rfl
    rw [hrun] at h
    obtain rfl : _ = s2 := Except.ok.inj h
    exact ⟨wkInv_mono s p p2 hw (by omega), rfl⟩

theorem wkInv_run (data : List Char) (toks : List Tok) :
    ∀ (p : Nat) (s : MarkdownSplitParser), s.data = data →
      validToksFrom data p toks = true → wkInv s p →
      ∀ s2, runEvents s (eventsAux data p toks) = .ok s2 →
        wkInv s2 data.length ∧ s2.data = data := by
  induction toks with
  | nil =>
    intro p s hdata hv hw s2 hrun
    simp only [eventsAux, runEvents] at hrun
    obtain rfl : s = s2 := Except.ok.inj hrun
    simp only [validToksFrom, decide_eq_true_eq] at hv
    exact ⟨hv ▸ hw, hdata⟩
  | cons t ts ih =>
    intro p s hdata hv hw s2 hrun
    simp only [validToksFrom, Bool.and_eq_true] at hv
    obtain ⟨hwf, hv2⟩ := hv
    have hw1 : 1 ≤ t.width := tokWF_width t hwf
    have hle : p + t.width ≤ data.length := validToksFrom_le data ts _ hv2
    have hppos : p ≤ s.data.length := by rw [hdata]; omega
    have hpos : get_offset s (lineAt data p) (colAt data p) = p := by
      have hoc := get_offset_correct s p hppos
      rw [hdata] at hoc
      exact hoc
    cases t with
    | startT n w =>
      simp only [eventsAux, runEvents, step] at hrun
      simp only [Tok.width] at hv2 hw1 hle
      cases hstep : handle_starttag s n (lineAt data p) (colAt data p) with
      | error err => rw [hstep] at hrun; exact Except.noConfusion hrun
      | ok s1 =>
        rw [hstep] at hrun
        have hrun2 : runEvents s1 (eventsAux data (p + w) ts) = .ok s2 := hrun
        obtain ⟨hw2, hd2⟩ := wkInv_handle_starttag s n (lineAt data p)
          (colAt data p) p (p + w) hw hpos (by omega) s1 hstep
        exact ih (p + w) s1 (hd2.trans hdata) hv2 hw2 s2 hrun2
    | endT n =>
      simp only [eventsAux, runEvents, step] at hrun
      simp only [Tok.width] at hv2 hw1 hle
      cases hstep : handle_endtag s n (lineAt data p) (colAt data p) with
      | error err => rw [hstep] at hrun; exact Except.noConfusion hrun
      | ok s1 =>
        rw [hstep] at hrun
        have hrun2 : runEvents s1 (eventsAux data (p + (n.length + 3)) ts) = .ok s2 := hrun
        obtain ⟨hw2, hd2⟩ := wkInv_handle_endtag s n (lineAt data p)
          (colAt data p) p (p + (n.length + 3)) hw hpos (by omega) s1 hstep
        exact ih (p + (n.length + 3)) s1 (hd2.trans hdata) hv2 hw2 s2 hrun2
    | startendT n w =>
      simp only [eventsAux, runEvents, step] at hrun
      simp only [Tok.width] at hv2 hw1 hle
      cases hstep : handle_startendtag s n (lineAt data p) (colAt data p) with
      | error err => rw [hstep] at hrun; exact Except.noConfusion hrun
      | ok s1 =>
        rw [hstep] at hrun
        have hrun2 : runEvents s1 (eventsAux data (p + w) ts) = .ok s2 := hrun
        obtain ⟨hw2, hd2⟩ := wkInv_handle_startendtag s n (lineAt data p)
          (colAt data p) p (p + w) hw hpos (by omega) s1 hstep
        exact ih (p + w) s1 (hd2.trans hdata) hv2 hw2 s2 hrun2
    | textT w =>
      simp only [eventsAux, runEvents, step] at hrun
      simp only [Tok.width] at hv2 hw1 hle
      cases hstep : handle_data s (lineAt data p) (colAt data p) with
      | error err => rw [hstep] at hrun; exact Except.noConfusion hrun
      | ok s1 =>
        rw [hstep] at hrun
        have hrun2 : runEvents s1 (eventsAux data (p + w) ts) = .ok s2 := hrun
        obtain ⟨hw2, hd2⟩ := wkInv_handle_data s (lineAt data p)
          (colAt data p) p (p + w) hw hpos (by omega) s1 hstep
        exact ih (p + w) s1 (hd2.trans hdata) hv2 hw2 s2 hrun2

/-! ### The text-annotation loop -/

theorem set_append_len (l1 : List α) (x y : α) (t : List α) :
    (l1 ++ x :: t).set l1.length y = l1 ++ y :: t := by
  induction l1 with
  | nil => rfl
  | cons h hs ih => simp [List.set, ih]

theorem get?_append_len (l1 : List α) (x : α) (t : List α) :
    (l1 ++ x :: t).get? l1.length = some x := by
  induction l1 with
  | nil => rfl
  | cons h hs ih => simpa [List.get?] using ih

theorem getD_append_len (l1 : List RawSpan) (x : RawSpan) (t : List RawSpan) :
    (l1 ++ x :: t).getD l1.length ([] : RawSpan) = x := by
  induction l1 with
  | nil => rfl
  | cons h hs ih => simpa [List.getD] using ih

theorem getElem_append_len (l1 : List α) (x : α) (t : List α)
    (h : l1.length < (l1 ++ x :: t).length) :
    (l1 ++ x :: t)[l1.length] = x := by
  induction l1 with
  | nil => rfl
  | cons hd hs ih => simpa using ih (by simp)

theorem textLoop_step (data : List Char) (fuel : Nat) (l1 t : List RawSpan)
    (k0 : List Char) (a b : Nat) (hab : ¬(a = b)) :
    textLoop data (fuel + 1) (l1 ++ ([.s k0, .n a, .n b] : RawSpan) :: t)
        l1.length 0 =
      textLoop data fuel
        (l1 ++ ([.s k0, .n a, .n b, .s (pySlice data a b)] : RawSpan) :: t)
        (l1.length + 1) 0 := by
  have hklt : l1.length < (l1 ++ ([.s k0, .n a, .n b] : RawSpan) :: t).length := by
    simp
  simp only [textLoop]
  rw [if_pos hklt]
  simp only [Nat.sub_zero, get?_append_len]
  simp [List.get?, set_append_len, getD_append_len, getElem_append_len,
    pyNegGet, hab, pure, Except.pure, Except.instMonad, Except.bind,
    List.cons_append]

theorem textLoop_ok (data : List Char) (l2 : List RawSpan)
    (hprop : ∀ sp ∈ l2, closedSpan sp) :
    ∀ (fuel : Nat) (l1 : List RawSpan), l2.length ≤ fuel →
      textLoop data fuel (l1 ++ l2) l1.length 0 =
        .ok (l1 ++ l2.map (texAp data)) := by
  induction l2 with
  | nil =>
    intro fuel l1 hf
    have hnlt : ¬(l1.length < (l1 ++ []).length) := by simp
    cases fuel with
    | zero => simp [textLoop, hnlt]
    | succ fuel => simp only [textLoop]; rw [if_neg hnlt]; simp
  | cons sp t ihl =>
    intro fuel l1 hf
    obtain ⟨k0, a, b, hsp, hab⟩ := hprop sp (by simp)
    subst hsp
    cases fuel with
    | zero => simp at hf
    | succ fuel =>
      rw [textLoop_step data fuel l1 t k0 a b (by omega)]
      have := ihl (fun q hq => hprop q (by simp [hq])) fuel
        (l1 ++ [([.s k0, .n a, .n b, .s (pySlice data a b)] : RawSpan)])
        (by simpa using hf)
      simp only [List.append_assoc, List.cons_append, List.nil_append,
        List.length_append, List.length_cons, List.length_nil] at this ⊢
      rw [show l1.length + 1 = l1.length + (0 + 1) by omega] at this
      simpa [texAp] using this

theorem textLoop_err (data : List Char) (k0 : List Char) (a : Nat)
    (l2 : List RawSpan) (l1 : List RawSpan) :
    ∀ (fuel : Nat) (done : List RawSpan),
      (∀ sp ∈ l1, closedSpan sp) → l1.length + 1 ≤ fuel →
      textLoop data fuel (done ++ l1 ++ ([.s k0, .n a] : RawSpan) :: l2)
          done.length 0 = .error .indexError := by
  induction l1 with
  | nil =>
    intro fuel done _ hf
    cases fuel with
    | zero => omega
    | succ fuel =>
      have hklt : done.length <
          ((done ++ [] : List RawSpan) ++ ([.s k0, .n a] : RawSpan) :: l2).length := by
        simp
      simp only [textLoop, List.append_nil] at hklt ⊢
      rw [if_pos hklt]
      simp only [Nat.sub_zero, get?_append_len]
      simp [List.get?, pure, Except.pure, Except.instMonad, Except.bind]
  | cons sp t ihl =>
    intro fuel done hprop hf
    obtain ⟨kk, aa, bb, hsp, hab⟩ := hprop sp (by simp)
    subst hsp
    cases fuel with
    | zero => omega
    | succ fuel =>
      have hstep := textLoop_step data fuel done
        (t ++ ([.s k0, .n a] : RawSpan) :: l2) kk aa bb (by omega)
      simp only [List.append_assoc, List.cons_append] at hstep ⊢
      rw [hstep]
      have := ihl fuel
        (done ++ [([.s kk, .n aa, .n bb, .s (pySlice data aa bb)] : RawSpan)])
        (fun q hq => hprop q (by simp [hq])) (by simpa using hf)
      simpa [List.append_assoc] using this

/-! ### Chain lemmas -/

theorem spanCAB_eq (sp : RawSpan) (k : List Char) (a b : Nat)
    (h : spanCAB sp = some (k, a, b)) : sp = [.s k, .n a, .n b] := by
  unfold spanCAB at h
  split at h
  · rename_i k2 a2 b2
    obtain ⟨rfl, rfl, rfl⟩ : k2 = k ∧ a2 = a ∧ b2 = b := by
      simpa using h
    rfl
  · cases h

theorem spanKABT_eq (sp : RawSpan) (k : List Char) (a b : Nat) (tx : List Char)
    (h : spanKABT sp = some (k, a, b, tx)) : sp = [.s k, .n a, .n b, .s tx] := by
  unfold spanKABT at h
  split at h
  · rename_i k2 a2 b2 t2
    obtain ⟨rfl, rfl, rfl, rfl⟩ : k2 = k ∧ a2 = a ∧ b2 = b ∧ t2 = tx := by
      simpa using h
    rfl
  · cases h

theorem chainEnd_append (xs : List RawSpan) :
    ∀ (c : Nat) (ys : List RawSpan),
      chainEnd c (xs ++ ys) = (chainEnd c xs).bind fun m => chainEnd m ys := by
  induction xs with
  | nil => intro c ys; rfl
  | cons sp t ih =>
    intro c ys
    simp only [List.cons_append, chainEnd]
    cases hs : spanCAB sp with
    | none => rfl
    | some v =>
      obtain ⟨k, a, b⟩ := v
      by_cases hc : a = c ∧ a < b
      · obtain ⟨rfl, hb⟩ := hc
        simp [hb, ih]
      · simp [hc]

theorem chainEnd_closed (xs : List RawSpan) :
    ∀ (c e : Nat), chainEnd c xs = some e → ∀ sp ∈ xs, closedSpan sp := by
  induction xs with
  | nil => intro c e _ sp hsp; cases hsp
  | cons sp0 t ih =>
    intro c e hch sp hsp
    simp only [chainEnd] at hch
    cases hs : spanCAB sp0 with
    | none => simp [hs] at hch
    | some v =>
      obtain ⟨k, a, b⟩ := v
      simp only [hs] at hch
      by_cases hc : a = c ∧ a < b
      · rw [if_pos hc] at hch
        rcases List.mem_cons.mp hsp with rfl | hmem
        · exact ⟨k, a, b, spanCAB_eq sp k a b hs, hc.2⟩
        · exact ih b e hch sp hmem
      · rw [if_neg hc] at hch; cases hch

theorem chainEnd_mono (xs : List RawSpan) :
    ∀ (c e : Nat), chainEnd c xs = some e → c ≤ e := by
  induction xs with
  | nil =>
    intro c e h
    obtain rfl : c = e := by simpa [chainEnd] using h
    omega
  | cons sp0 t ih =>
    intro c e hch
    simp only [chainEnd] at hch
    cases hs : spanCAB sp0 with
    | none => simp [hs] at hch
    | some v =>
      obtain ⟨k, a, b⟩ := v
      simp only [hs] at hch
      by_cases hc : a = c ∧ a < b
      · rw [if_pos hc] at hch
        have := ih b e hch
        omega
      · rw [if_neg hc] at hch; cases hch

theorem chain_map_texAp (data : List Char) (xs : List RawSpan) :
    ∀ (c e : Nat), chainEnd c xs = some e →
      spanChain4 c (xs.map (texAp data)) = some e := by
  induction xs with
  | nil => intro c e h; simpa [chainEnd, spanChain4] using h
  | cons sp0 t ih =>
    intro c e hch
    simp only [chainEnd] at hch
    cases hs : spanCAB sp0 with
    | none => simp [hs] at hch
    | some v =>
      obtain ⟨k, a, b⟩ := v
      simp only [hs] at hch
      by_cases hc : a = c ∧ a < b
      · rw [if_pos hc] at hch
        have hsp := spanCAB_eq sp0 k a b hs
        subst hsp
        simp only [List.map, texAp, spanChain4, spanKABT]
        rw [if_pos hc]
        exact ih b e hch
      · rw [if_neg hc] at hch; cases hch

theorem pySlice_append (data : List Char) (a b c : Nat)
    (hab : a ≤ b) (hbc : b ≤ c) :
    pySlice data a b ++ pySlice data b c = pySlice data a c := by
  unfold pySlice
  have h1 : data.take b = (data.take c).take b := by
    rw [List.take_take, min_eq_left hbc]
  rw [h1]
  by_cases ha : a ≤ ((data.take c).take b).length
  · calc ((data.take c).take b).drop a ++ (data.take c).drop b
        = (((data.take c).take b) ++ ((data.take c).drop b)).drop a := by
          rw [List.drop_append_of_le_length ha]
      _ = (data.take c).drop a := by rw [List.take_append_drop]
  · push_neg at ha
    have hlen : ((data.take c).take b).length = min b (data.take c).length := by
      simp
    have h2 : (data.take c).length < a := by
      rcases Nat.lt_or_ge (data.take c).length b with hx | hx
      · omega
      · rw [hlen] at ha; omega
    rw [List.drop_eq_nil_of_le (by omega), List.drop_eq_nil_of_le (by omega),
      List.drop_eq_nil_of_le (by omega)]
    rfl

theorem chain_text (data : List Char) (xs : List RawSpan) :
    ∀ (c e : Nat), chainEnd c xs = some e →
      spansText (xs.map (texAp data)) = pySlice data c e := by
  induction xs with
  | nil =>
    intro c e h
    obtain rfl : c = e := by simpa [chainEnd] using h
    simp [spansText, pySlice, List.drop_eq_nil_of_le]
  | cons sp0 t ih =>
    intro c e hch
    simp only [chainEnd] at hch
    cases hs : spanCAB sp0 with
    | none => simp [hs] at hch
    | some v =>
      obtain ⟨k, a, b⟩ := v
      simp only [hs] at hch
      by_cases hc : a = c ∧ a < b
      · rw [if_pos hc] at hch
        have hsp := spanCAB_eq sp0 k a b hs
        subst hsp
        have hbe : b ≤ e := chainEnd_mono t b e hch
        simp only [List.map, texAp, spansText, spanKABT]
        rw [ih b e hch]
        obtain ⟨rfl, hab⟩ := hc
        exact pySlice_append data a b e (by omega) hbe
      · rw [if_neg hc] at hch; cases hch

/-! ### Doomed states are absorbing -/

theorem doomedList_appendLast (l1 : List RawSpan) (k0 : List Char) (a : Nat)
    (l2 : List RawSpan) (hl2 : l2 ≠ []) (e : PyElem) :
    ∃ l2b, appendLast (l1 ++ ([.s k0, .n a] : RawSpan) :: l2) e =
        .ok (l1 ++ ([.s k0, .n a] : RawSpan) :: l2b) ∧ l2b ≠ [] := by
  rcases List.eq_nil_or_concat l2 with rfl | ⟨l2a, lst, hdec⟩
  · exact absurd rfl hl2
  · rw [List.concat_eq_append] at hdec
    subst hdec
    refine ⟨l2a ++ [lst ++ [e]], ?_, by simp⟩
    have hre : l1 ++ ([.s k0, .n a] : RawSpan) :: (l2a ++ [lst]) =
        (l1 ++ ([.s k0, .n a] : RawSpan) :: l2a) ++ [lst] := by simp
    rw [hre, appendLast_snoc]
    simp

theorem doomed_step (s : MarkdownSplitParser) (e : Event) (hd : doomedSt s)
    (s2 : MarkdownSplitParser) (h : step s e = .ok s2) :
    doomedSt s2 ∧ s2.data = s.data := by
  obtain ⟨l1, k0, a0, l2, hsl, hl2, hcl⟩ := hd
  cases e with
  | starttag tag lin col =>
    simp only [step] at h
    by_cases himg : tag = "img".data
    · simp [handle_starttag, himg, pure, Except.pure] at h
      subst h
      exact ⟨⟨l1, k0, a0, l2, hsl, hl2, hcl⟩, rfl⟩
    · by_cases hot : s.opentags.length = 0
      · by_cases hflag : (s.datag || s.setag) = true
        · obtain ⟨l2b, hap, hl2b⟩ := doomedList_appendLast l1 k0 a0 l2 hl2
            (.n (get_offset s lin col))
          rw [← hsl] at hap
          have hrun : handle_starttag s tag lin col =
              .ok { s with
                    opentags := s.opentags ++ [tag],
                    splitlist := (l1 ++ ([.s k0, .n a0] : RawSpan) :: l2b) ++
                      [[.s "html".data, .n (get_offset s lin col)]],
                    datag := false, setag := false } := by
            simp [handle_starttag, himg, hot, hflag, hap, pure, Except.pure,
              Except.instMonad, Except.bind]
          rw [hrun] at h
          obtain rfl : _ = s2 := Except.ok.inj h
          exact ⟨⟨l1, k0, a0,
            l2b ++ [[.s "html".data, .n (get_offset s lin col)]],
            by simp, by simp, hcl⟩, rfl⟩
        · have hrun : handle_starttag s tag lin col =
              .ok { s with
                    opentags := s.opentags ++ [tag],
                    splitlist := s.splitlist ++
                      [[.s "html".data, .n (get_offset s lin col)]] } := by
            simp [handle_starttag, himg, hot, hflag, pure, Except.pure,
              Except.instMonad, Except.bind]
          rw [hrun] at h
          obtain rfl : _ = s2 := Except.ok.inj h
          exact ⟨⟨l1, k0, a0,
            l2 ++ [[.s "html".data, .n (get_offset s lin col)]],
            by simp [hsl], by simp, hcl⟩, rfl⟩
      · have hrun : handle_starttag s tag lin col =
            .ok { s with opentags := s.opentags ++ [tag] } := by
          simp [handle_starttag, himg, hot, pure, Except.pure,
            Except.instMonad, Except.bind]
        rw [hrun] at h
        obtain rfl : _ = s2 := Except.ok.inj h
        exact ⟨⟨l1, k0, a0, l2, hsl, hl2, hcl⟩, rfl⟩
  | endtag tag lin col =>
    simp only [step] at h
    rcases List.eq_nil_or_concat s.opentags with hnil | ⟨ot0, lastT, hot⟩
    · simp [handle_endtag, hnil, pyPop, pure, Except.pure, Except.instMonad,
        Except.bind] at h
    · rw [List.concat_eq_append] at hot
      by_cases hot0 : ot0 = []
      · subst hot0
        obtain ⟨l2b, hap, hl2b⟩ := doomedList_appendLast l1 k0 a0 l2 hl2
          (.n (getOffsetLoop s.data (lin - 1) 0 + col + tag.length + 3))
        have hrun : handle_endtag s tag lin col =
            .ok { s with
                  opentags := [],
                  splitlist := l1 ++ ([.s k0, .n a0] : RawSpan) :: l2b } := by
          simp [handle_endtag, hot, pyPop_snoc, pyPop, hsl, hap, get_offset,
            pure, Except.pure, Except.instMonad, Except.bind, Except.map]
        rw [hrun] at h
        obtain rfl : _ = s2 := Except.ok.inj h
        exact ⟨⟨l1, k0, a0, l2b, rfl, hl2b, hcl⟩, rfl⟩
      · have hlen : ¬(ot0.length = 0) := by
          simpa [List.length_eq_zero] using hot0
        have hrun : handle_endtag s tag lin col =
            .ok { s with opentags := ot0 } := by
          simp [handle_endtag, hot, pyPop_snoc, hlen, hot0, pure, Except.pure,
            Except.instMonad, Except.bind, Except.map]
        rw [hrun] at h
        obtain rfl : _ = s2 := Except.ok.inj h
        exact ⟨⟨l1, k0, a0, l2, hsl, hl2, hcl⟩, rfl⟩
  | startendtag tag lin col =>
    simp only [step] at h
    by_cases hot : s.opentags.length = 0
    · by_cases hdg : s.datag = true
      · obtain ⟨l2b, hap, hl2b⟩ := doomedList_appendLast l1 k0 a0 l2 hl2
          (.n (get_offset s lin col))
        rw [← hsl] at hap
        have hrun : handle_startendtag s tag lin col =
            .ok { s with
                  splitlist := (l1 ++ ([.s k0, .n a0] : RawSpan) :: l2b) ++
                    [[.s "html".data, .n (get_offset s lin col)]],
                  datag := false, setag := true } := by
          simp [handle_startendtag, hot, hdg, hap, pure, Except.pure,
            Except.instMonad, Except.bind]
        rw [hrun] at h
        obtain rfl : _ = s2 := Except.ok.inj h
        exact ⟨⟨l1, k0, a0,
          l2b ++ [[.s "html".data, .n (get_offset s lin col)]],
          by simp, by simp, hcl⟩, rfl⟩
      · have hrun : handle_startendtag s tag lin col =
            .ok { s with
                  splitlist := s.splitlist ++
                    [[.s "html".data, .n (get_offset s lin col)]],
                  setag := true } := by
          simp [handle_startendtag, hot, hdg, pure, Except.pure,
            Except.instMonad, Except.bind]
        rw [hrun] at h
        obtain rfl : _ = s2 := Except.ok.inj h
        exact ⟨⟨l1, k0, a0,
          l2 ++ [[.s "html".data, .n (get_offset s lin col)]],
          by simp [hsl], by simp, hcl⟩, rfl⟩
    · have hrun : handle_startendtag s tag lin col = .ok s := by
        simp [handle_startendtag, hot, pure, Except.pure, Except.instMonad,
          Except.bind]
      rw [hrun] at h
      obtain rfl : _ = s2 := Except.ok.inj h
      exact ⟨⟨l1, k0, a0, l2, hsl, hl2, hcl⟩, rfl⟩
  | dataEv lin col =>
    simp only [step] at h
    by_cases hact : (s.opentags.length = 0 && !s.datag) = true
    · have hot : s.opentags.length = 0 := by
        have := (Bool.and_eq_true _ _).mp hact
        exact of_decide_eq_true (by simpa using this.1)
      have hdg : s.datag = false := by
        have := (Bool.and_eq_true _ _).mp hact
        simpa using this.2
      have hotnil : s.opentags = [] := List.length_eq_zero.mp hot
      by_cases hsg : s.setag = true
      · obtain ⟨l2b, hap, hl2b⟩ := doomedList_appendLast l1 k0 a0 l2 hl2
          (.n (get_offset s lin col))
        rw [← hsl] at hap
        have hrun : handle_data s lin col =
            .ok { s with
                  splitlist := (l1 ++ ([.s k0, .n a0] : RawSpan) :: l2b) ++
                    [[.s "markdown".data, .n (get_offset s lin col)]],
                  setag := false, datag := true } := by
          simp [handle_data, hotnil, hdg, hsg, hap, pure, Except.pure,
            Except.instMonad, Except.bind]
        rw [hrun] at h
        obtain rfl : _ = s2 := Except.ok.inj h
        exact ⟨⟨l1, k0, a0,
          l2b ++ [[.s "markdown".data, .n (get_offset s lin col)]],
          by simp, by simp, hcl⟩, rfl⟩
      · have hrun : handle_data s lin col =
            .ok { s with
                  splitlist := s.splitlist ++
                    [[.s "markdown".data, .n (get_offset s lin col)]],
                  datag := true } := by
          simp [handle_data, hotnil, hdg, hsg, pure, Except.pure,
            Except.instMonad, Except.bind]
        rw [hrun] at h
        obtain rfl : _ = s2 := Except.ok.inj h
        exact ⟨⟨l1, k0, a0,
          l2 ++ [[.s "markdown".data, .n (get_offset s lin col)]],
          by simp [hsl], by simp, hcl⟩, rfl⟩
    · have hrun : handle_data s lin col = .ok s := by
        simp only [handle_data]
        split
        · rename_i hc
          exact absurd hc hact
        · rfl
      rw [hrun] at h
      obtain rfl : _ = s2 := Except.ok.inj h
      exact ⟨⟨l1, k0, a0, l2, hsl, hl2, hcl⟩, rfl⟩

/-! ### Strong invariant preservation on good states -/

theorem strong_handle_starttag (s : MarkdownSplitParser) (tag : List Char)
    (lin col p p2 : Nat) (hg : idleSt s p ∨ openSt s p)
    (hpos : get_offset s lin col = p) (hpp : p < p2)
    (himgc : tag = "img".data → s.opentags = [] → s.datag = false →
      s.setag = false → False)
    (s2 : MarkdownSplitParser) (h : handle_starttag s tag lin col = .ok s2) :
    strongInv s2 p2 ∧ s2.data = s.data := by
  by_cases himg : tag = "img".data
  · simp [handle_starttag, himg, pure, Except.pure] at h
    subst h
    rcases hg with hi | ho
    · exact (himgc himg hi.1 hi.2.1 hi.2.2.1).elim
    · obtain ⟨init, k, a, hsl, hch, ha, hcase⟩ := ho
      exact ⟨Or.inr (Or.inl ⟨init, k, a, hsl, hch, by omega, hcase⟩), rfl⟩
  · by_cases hot : s.opentags.length = 0
    · have hotnil : s.opentags = [] := List.length_eq_zero.mp hot
      by_cases hflag : (s.datag || s.setag) = true
      · rcases hg with hi | ho
        · rw [hi.2.1, hi.2.2.1] at hflag
          simp at hflag
        · obtain ⟨init, k, a, hsl, hch, ha, hcase⟩ := ho
          have hrun : handle_starttag s tag lin col =
              .ok { s with
                    opentags := [tag],
                    splitlist := (init ++ [[.s k, .n a, .n p]]) ++
                      [[.s "html".data, .n p]],
                    datag := false, setag := false } := by
            simp [handle_starttag, himg, hot, hflag, hpos, hsl, appendLast_snoc,
              hotnil, pure, Except.pure, Except.instMonad, Except.bind]
          rw [hrun] at h
          obtain rfl : _ = s2 := Except.ok.inj h
          refine ⟨Or.inr (Or.inl ⟨init ++ [[.s k, .n a, .n p]], "html".data, p,
            rfl, ?_, hpp, Or.inr (Or.inr ⟨by simp, rfl, rfl, rfl⟩)⟩), rfl⟩
          rw [chainEnd_append, hch]
          simp [chainEnd, spanCAB, ha]
      · rcases hg with hi | ho
        · have hrun : handle_starttag s tag lin col =
              .ok { s with
                    opentags := [tag],
                    splitlist := s.splitlist ++ [[.s "html".data, .n p]] } := by
            simp [handle_starttag, himg, hot, hflag, hpos, hotnil, pure,
              Except.pure, Except.instMonad, Except.bind]
          rw [hrun] at h
          obtain rfl : _ = s2 := Except.ok.inj h
          refine ⟨Or.inr (Or.inl ⟨s.splitlist, "html".data, p, rfl,
            hi.2.2.2, hpp, Or.inr (Or.inr ⟨by simp, ?_, ?_, rfl⟩)⟩), rfl⟩
          · have := hi.2.1
            simpa using this
          · have := hi.2.2.1
            simpa using this
        · obtain ⟨init, k, a, hsl, hch, ha, hcase⟩ := ho
          rcases hcase with h1 | h2 | h3
          · rw [h1.1] at hflag
            simp at hflag
          · rw [h2.1] at hflag
            simp at hflag
          · exact absurd hotnil h3.1
    · rcases hg with hi | ho
      · exact absurd (by simp [hi.1]) hot
      · obtain ⟨init, k, a, hsl, hch, ha, hcase⟩ := ho
        rcases hcase with h1 | h2 | h3
        · exact absurd (by simp [h1.2.2.1]) hot
        · exact absurd (by simp [h2.2.2.1]) hot
        · have hrun : handle_starttag s tag lin col =
              .ok { s with opentags := s.opentags ++ [tag] } := by
            simp [handle_starttag, himg, hot, pure, Except.pure,
              Except.instMonad, Except.bind]
          rw [hrun] at h
          obtain rfl : _ = s2 := Except.ok.inj h
          exact ⟨Or.inr (Or.inl ⟨init, k, a, hsl, hch, by omega,
            Or.inr (Or.inr ⟨by simp, h3.2.1, h3.2.2.1, h3.2.2.2⟩)⟩), rfl⟩

theorem strong_handle_endtag (s : MarkdownSplitParser) (tag : List Char)
    (lin col p p2 : Nat) (hg : idleSt s p ∨ openSt s p)
    (hpos : get_offset s lin col = p) (hp2 : p2 = p + tag.length + 3)
    (s2 : MarkdownSplitParser) (h : handle_endtag s tag lin col = .ok s2) :
    strongInv s2 p2 ∧ s2.data = s.data := by
  have hpos2 : getOffsetLoop s.data (lin - 1) 0 + col = p := hpos
  rcases List.eq_nil_or_concat s.opentags with hnil | ⟨ot0, lastT, hot⟩
  · simp [handle_endtag, hnil, pyPop, pure, Except.pure, Except.instMonad,
      Except.bind] at h
  · rw [List.concat_eq_append] at hot
    have hotne : s.opentags ≠ [] := by simp [hot]
    rcases hg with hi | ho
    · exact absurd hi.1 hotne
    · obtain ⟨init, k, a, hsl, hch, ha, hcase⟩ := ho
      rcases hcase with h1 | h2 | h3
      · exact absurd h1.2.2.1 hotne
      · exact absurd h2.2.2.1 hotne
      · by_cases hot0 : ot0 = []
        · subst hot0
          have hrun : handle_endtag s tag lin col =
              .ok { s with
                    opentags := [],
                    splitlist := init ++
                      [[.s k, .n a, .n (p + tag.length + 3)]] } := by
            simp [handle_endtag, hot, pyPop_snoc, pyPop, hsl, appendLast_snoc,
              get_offset, hpos2, pure, Except.pure, Except.instMonad,
              Except.bind, Except.map]
          rw [hrun] at h
          obtain rfl : _ = s2 := Except.ok.inj h
          refine ⟨Or.inl ⟨rfl, h3.2.1, h3.2.2.1, ?_⟩, rfl⟩
          rw [chainEnd_append, hch]
          have hlt : a < p + tag.length + 3 := by omega
          simp [chainEnd, spanCAB, hp2, hlt]
        · have hlen : ¬(ot0.length = 0) := by
            simpa [List.length_eq_zero] using hot0
          have hrun : handle_endtag s tag lin col =
              .ok { s with opentags := ot0 } := by
            simp [handle_endtag, hot, pyPop_snoc, hlen, hot0, pure,
              Except.pure, Except.instMonad, Except.bind, Except.map]
          rw [hrun] at h
          obtain rfl : _ = s2 := Except.ok.inj h
          exact ⟨Or.inr (Or.inl ⟨init, k, a, hsl, hch, by omega,
            Or.inr (Or.inr ⟨hot0, h3.2.1, h3.2.2.1, h3.2.2.2⟩)⟩), rfl⟩

theorem strong_handle_startendtag (s : MarkdownSplitParser) (tag : List Char)
    (lin col p p2 : Nat) (hg : idleSt s p ∨ openSt s p)
    (hpos : get_offset s lin col = p) (hpp : p < p2)
    (s2 : MarkdownSplitParser) (h : handle_startendtag s tag lin col = .ok s2) :
    strongInv s2 p2 ∧ s2.data = s.data := by
  by_cases hot : s.opentags.length = 0
  · have hotnil : s.opentags = [] := List.length_eq_zero.mp hot
    by_cases hdg : s.datag = true
    · rcases hg with hi | ho
      · rw [hi.2.1] at hdg
        cases hdg
      · obtain ⟨init, k, a, hsl, hch, ha, hcase⟩ := ho
        have hrun : handle_startendtag s tag lin col =
            .ok { s with
                  splitlist := (init ++ [[.s k, .n a, .n p]]) ++
                    [[.s "html".data, .n p]],
                  datag := false, setag := true } := by
          simp [handle_startendtag, hot, hdg, hpos, hsl, appendLast_snoc, pure,
            Except.pure, Except.instMonad, Except.bind]
        rw [hrun] at h
        obtain rfl : _ = s2 := Except.ok.inj h
        refine ⟨Or.inr (Or.inl ⟨init ++ [[.s k, .n a, .n p]], "html".data, p,
          rfl, ?_, hpp, Or.inr (Or.inl ⟨rfl, rfl, hotnil, rfl⟩)⟩), rfl⟩
        rw [chainEnd_append, hch]
        simp [chainEnd, spanCAB, ha]
    · rcases hg with hi | ho
      · have hrun : handle_startendtag s tag lin col =
            .ok { s with
                  splitlist := s.splitlist ++ [[.s "html".data, .n p]],
                  setag := true } := by
          simp [handle_startendtag, hot, hdg, hpos, pure, Except.pure,
            Except.instMonad, Except.bind]
        rw [hrun] at h
        obtain rfl : _ = s2 := Except.ok.inj h
        refine ⟨Or.inr (Or.inl ⟨s.splitlist, "html".data, p, rfl, hi.2.2.2,
          hpp, Or.inr (Or.inl ⟨rfl, ?_, hotnil, rfl⟩)⟩), rfl⟩
        have := hi.2.1
        simpa using this
      · obtain ⟨init, k, a, hsl, hch, ha, hcase⟩ := ho
        rcases hcase with h1 | h2 | h3
        · rw [h1.1] at hdg
          simp at hdg
        · -- pending self-closing region: the new region strands the old one
          have hrun : handle_startendtag s tag lin col =
              .ok { s with
                    splitlist := s.splitlist ++ [[.s "html".data, .n p]],
                    setag := true } := by
            simp [handle_startendtag, hot, hdg, hpos, pure, Except.pure,
              Except.instMonad, Except.bind]
          rw [hrun] at h
          obtain rfl : _ = s2 := Except.ok.inj h
          refine ⟨Or.inr (Or.inr ⟨init, k, a, [[.s "html".data, .n p]],
            by simp [hsl], by simp, chainEnd_closed init 0 a hch⟩), rfl⟩
        · exact absurd hotnil h3.1
  · rcases hg with hi | ho
    · exact absurd (by simp [hi.1]) hot
    · obtain ⟨init, k, a, hsl, hch, ha, hcase⟩ := ho
      rcases hcase with h1 | h2 | h3
      · exact absurd (by simp [h1.2.2.1]) hot
      · exact absurd (by simp [h2.2.2.1]) hot
      · have hrun : handle_startendtag s tag lin col = .ok s := by
          simp [handle_startendtag, hot, pure, Except.pure, Except.instMonad,
            Except.bind]
        rw [hrun] at h
        obtain rfl : _ = s2 := Except.ok.inj h
        exact ⟨Or.inr (Or.inl ⟨init, k, a, hsl, hch, by omega,
          Or.inr (Or.inr h3)⟩), rfl⟩

theorem strong_handle_data (s : MarkdownSplitParser)
    (lin col p p2 : Nat) (hg : idleSt s p ∨ openSt s p)
    (hpos : get_offset s lin col = p) (hpp : p < p2)
    (s2 : MarkdownSplitParser) (h : handle_data s lin col = .ok s2) :
    strongInv s2 p2 ∧ s2.data = s.data := by
  by_cases hact : (s.opentags.length = 0 && !s.datag) = true
  · have hot : s.opentags.length = 0 := by
      have := (Bool.and_eq_true _ _).mp hact
      exact of_decide_eq_true (by simpa using this.1)
    have hotnil : s.opentags = [] := List.length_eq_zero.mp hot
    have hdg : s.datag = false := by
      have := (Bool.and_eq_true _ _).mp hact
      simpa using this.2
    by_cases hsg : s.setag = true
    · rcases hg with hi | ho
      · rw [hi.2.2.1] at hsg
        cases hsg
      · obtain ⟨init, k, a, hsl, hch, ha, hcase⟩ := ho
        have hrun : handle_data s lin col =
            .ok { s with
                  splitlist := (init ++ [[.s k, .n a, .n p]]) ++
                    [[.s "markdown".data, .n p]],
                  setag := false, datag := true } := by
          simp [handle_data, hotnil, hdg, hsg, hpos, hsl, appendLast_snoc,
            pure, Except.pure, Except.instMonad, Except.bind, Except.map]
        rw [hrun] at h
        obtain rfl : _ = s2 := Except.ok.inj h
        refine ⟨Or.inr (Or.inl ⟨init ++ [[.s k, .n a, .n p]],
          "markdown".data, p, rfl, ?_, hpp,
          Or.inl ⟨rfl, rfl, hotnil, rfl⟩⟩), rfl⟩
        rw [chainEnd_append, hch]
        simp [chainEnd, spanCAB, ha]
    · rcases hg with hi | ho
      · have hrun : handle_data s lin col =
            .ok { s with
                  splitlist := s.splitlist ++ [[.s "markdown".data, .n p]],
                  datag := true } := by
          simp [handle_data, hotnil, hdg, hsg, hpos, pure, Except.pure,
            Except.instMonad, Except.bind, Except.map]
        rw [hrun] at h
        obtain rfl : _ = s2 := Except.ok.inj h
        refine ⟨Or.inr (Or.inl ⟨s.splitlist, "markdown".data, p, rfl,
          hi.2.2.2, hpp, Or.inl ⟨rfl, ?_, hotnil, rfl⟩⟩), rfl⟩
        have := hi.2.2.1
        simpa using this
      · obtain ⟨init, k, a, hsl, hch, ha, hcase⟩ := ho
        rcases hcase with h1 | h2 | h3
        · rw [h1.1] at hdg
          cases hdg
        · rw [h2.1] at hsg
          simp at hsg
        · exact absurd hotnil h3.1
  · have hrun : handle_data s lin col = .ok s := by
      simp only [handle_data]
      split
      · rename_i hc
        exact absurd hc hact
      · rfl
    rw [hrun] at h
    obtain rfl : _ = s2 := Except.ok.inj h
    rcases hg with hi | ho
    · exfalso
      apply hact
      simp [hi.1, hi.2.1]
    · obtain ⟨init, k, a, hsl, hch, ha, hcase⟩ := ho
      exact ⟨Or.inr (Or.inl ⟨init, k, a, hsl, hch, by omega, hcase⟩), rfl⟩

theorem strong_run (data : List Char) (toks : List Tok) :
    ∀ (p : Nat) (s : MarkdownSplitParser), s.data = data →
      validToksFrom data p toks = true →
      imgSafe s (eventsAux data p toks) = true →
      strongInv s p →
      ∀ s2, runEvents s (eventsAux data p toks) = .ok s2 →
        strongInv s2 data.length ∧ s2.data = data := by
  induction toks with
  | nil =>
    intro p s hdata hv _ hs s2 hrun
    simp only [eventsAux, runEvents] at hrun
    obtain rfl : s = s2 := Except.ok.inj hrun
    simp only [validToksFrom, decide_eq_true_eq] at hv
    exact ⟨hv ▸ hs, hdata⟩
  | cons t ts ih =>
    intro p s hdata hv hsafe hs s2 hrun
    simp only [validToksFrom, Bool.and_eq_true] at hv
    obtain ⟨hwf, hv2⟩ := hv
    have hw1 : 1 ≤ t.width := tokWF_width t hwf
    have hle : p + t.width ≤ data.length := validToksFrom_le data ts _ hv2
    have hppos : p ≤ s.data.length := by rw [hdata]; omega
    have hpos : get_offset s (lineAt data p) (colAt data p) = p := by
      have hoc := get_offset_correct s p hppos
      rw [hdata] at hoc
      exact hoc
    cases t with
    | startT n w =>
      simp only [eventsAux, runEvents, step] at hrun
      simp only [eventsAux, imgSafe, Bool.and_eq_true] at hsafe
      obtain ⟨hca, hcb⟩ := hsafe
      simp only [Tok.width] at hv2 hw1 hle
      cases hstep : handle_starttag s n (lineAt data p) (colAt data p) with
      | error err => rw [hstep] at hrun; exact Except.noConfusion hrun
      | ok s1 =>
        rw [hstep] at hrun
        have hrun2 : runEvents s1 (eventsAux data (p + w) ts) = .ok s2 := hrun
        have hsafe2 : imgSafe s1 (eventsAux data (p + w) ts) = true := by
          have hstep2 : step s (Event.starttag n (lineAt data p) (colAt data p)) =
              .ok s1 := hstep
          rw [hstep2] at hcb
          exact hcb
        have himgc : n = "img".data → s.opentags = [] → s.datag = false →
            s.setag = false → False := by
          intro h1 h2 h3 h4
          simp [h1, h2, h3, h4] at hca
        rcases hs with hi | ho | hd
        · obtain ⟨hs2, hd2⟩ := strong_handle_starttag s n (lineAt data p)
            (colAt data p) p (p + w) (Or.inl hi) hpos (by omega) himgc s1 hstep
          exact ih (p + w) s1 (hd2.trans hdata) hv2 hsafe2 hs2 s2 hrun2
        · obtain ⟨hs2, hd2⟩ := strong_handle_starttag s n (lineAt data p)
            (colAt data p) p (p + w) (Or.inr ho) hpos (by omega) himgc s1 hstep
          exact ih (p + w) s1 (hd2.trans hdata) hv2 hsafe2 hs2 s2 hrun2
        · obtain ⟨hs2, hd2⟩ := doomed_step s
            (Event.starttag n (lineAt data p) (colAt data p)) hd s1 hstep
          exact ih (p + w) s1 (hd2.trans hdata) hv2 hsafe2
            (Or.inr (Or.inr hs2)) s2 hrun2
    | endT n =>
      simp only [eventsAux, runEvents, step] at hrun
      simp only [eventsAux, imgSafe, Bool.and_eq_true, Bool.true_and] at hsafe
      simp only [Tok.width] at hv2 hw1 hle
      cases hstep : handle_endtag s n (lineAt data p) (colAt data p) with
      | error err => rw [hstep] at hrun; exact Except.noConfusion hrun
      | ok s1 =>
        rw [hstep] at hrun
        have hrun2 : runEvents s1 (eventsAux data (p + (n.length + 3)) ts) = .ok s2 := hrun
        have hsafe2 : imgSafe s1 (eventsAux data (p + (n.length + 3)) ts) = true := by
          have hstep2 : step s (Event.endtag n (lineAt data p) (colAt data p)) =
              .ok s1 := hstep
          rw [hstep2] at hsafe
          exact hsafe
        rcases hs with hi | ho | hd
        · obtain ⟨hs2, hd2⟩ := strong_handle_endtag s n (lineAt data p)
            (colAt data p) p (p + (n.length + 3)) (Or.inl hi) hpos (by omega)
            s1 hstep
          exact ih (p + (n.length + 3)) s1 (hd2.trans hdata) hv2 hsafe2 hs2 s2 hrun2
        · obtain ⟨hs2, hd2⟩ := strong_handle_endtag s n (lineAt data p)
            (colAt data p) p (p + (n.length + 3)) (Or.inr ho) hpos (by omega)
            s1 hstep
          exact ih (p + (n.length + 3)) s1 (hd2.trans hdata) hv2 hsafe2 hs2 s2 hrun2
        · obtain ⟨hs2, hd2⟩ := doomed_step s
            (Event.endtag n (lineAt data p) (colAt data p)) hd s1 hstep
          exact ih (p + (n.length + 3)) s1 (hd2.trans hdata) hv2 hsafe2
            (Or.inr (Or.inr hs2)) s2 hrun2
    | startendT n w =>
      simp only [eventsAux, runEvents, step] at hrun
      simp only [eventsAux, imgSafe, Bool.and_eq_true, Bool.true_and] at hsafe
      simp only [Tok.width] at hv2 hw1 hle
      cases hstep : handle_startendtag s n (lineAt data p) (colAt data p) with
      | error err => rw [hstep] at hrun; exact Except.noConfusion hrun
      | ok s1 =>
        rw [hstep] at hrun
        have hrun2 : runEvents s1 (eventsAux data (p + w) ts) = .ok s2 := hrun
        have hsafe2 : imgSafe s1 (eventsAux data (p + w) ts) = true := by
          have hstep2 : step s (Event.startendtag n (lineAt data p) (colAt data p)) =
              .ok s1 := hstep
          rw [hstep2] at hsafe
          exact hsafe
        rcases hs with hi | ho | hd
        · obtain ⟨hs2, hd2⟩ := strong_handle_startendtag s n (lineAt data p)
            (colAt data p) p (p + w) (Or.inl hi) hpos (by omega) s1 hstep
          exact ih (p + w) s1 (hd2.trans hdata) hv2 hsafe2 hs2 s2 hrun2
        · obtain ⟨hs2, hd2⟩ := strong_handle_startendtag s n (lineAt data p)
            (colAt data p) p (p + w) (Or.inr ho) hpos (by omega) s1 hstep
          exact ih (p + w) s1 (hd2.trans hdata) hv2 hsafe2 hs2 s2 hrun2
        · obtain ⟨hs2, hd2⟩ := doomed_step s
            (Event.startendtag n (lineAt data p) (colAt data p)) hd s1 hstep
          exact ih (p + w) s1 (hd2.trans hdata) hv2 hsafe2
            (Or.inr (Or.inr hs2)) s2 hrun2
    | textT w =>
      simp only [eventsAux, runEvents, step] at hrun
      simp only [eventsAux, imgSafe, Bool.and_eq_true, Bool.true_and] at hsafe
      simp only [Tok.width] at hv2 hw1 hle
      cases hstep : handle_data s (lineAt data p) (colAt data p) with
      | error err => rw [hstep] at hrun; exact Except.noConfusion hrun
      | ok s1 =>
        rw [hstep] at hrun
        have hrun2 : runEvents s1 (eventsAux data (p + w) ts) = .ok s2 := hrun
        have hsafe2 : imgSafe s1 (eventsAux data (p + w) ts) = true := by
          have hstep2 : step s (Event.dataEv (lineAt data p) (colAt data p)) =
              .ok s1 := hstep
          rw [hstep2] at hsafe
          exact hsafe
        rcases hs with hi | ho | hd
        · obtain ⟨hs2, hd2⟩ := strong_handle_data s (lineAt data p)
            (colAt data p) p (p + w) (Or.inl hi) hpos (by omega) s1 hstep
          exact ih (p + w) s1 (hd2.trans hdata) hv2 hsafe2 hs2 s2 hrun2
        · obtain ⟨hs2, hd2⟩ := strong_handle_data s (lineAt data p)
            (colAt data p) p (p + w) (Or.inr ho) hpos (by omega) s1 hstep
          exact ih (p + w) s1 (hd2.trans hdata) hv2 hsafe2 hs2 s2 hrun2
        · obtain ⟨hs2, hd2⟩ := doomed_step s
            (Event.dataEv (lineAt data p) (colAt data p)) hd s1 hstep
          exact ih (p + w) s1 (hd2.trans hdata) hv2 hsafe2
            (Or.inr (Or.inr hs2)) s2 hrun2

/-! ### Feed-level results -/

theorem list_all_or_first_bad (P : RawSpan → Prop) (l : List RawSpan) :
    (∀ x ∈ l, P x) ∨
      ∃ l1 x l2, l = l1 ++ x :: l2 ∧ (∀ y ∈ l1, P y) ∧ ¬P x := by
  induction l with
  | nil =>
    left
    intro x hx
    cases hx
  | cons a t ih =>
    by_cases ha : P a
    · rcases ih with hall | ⟨l1, x, l2, hdec, hpre, hbad⟩
      · left
        intro x hx
        rcases List.mem_cons.mp hx with rfl | hx
        · exact ha
        · exact hall x hx
      · right
        refine ⟨a :: l1, x, l2, by simp [hdec], ?_, hbad⟩
        intro y hy
        rcases List.mem_cons.mp hy with rfl | hy
        · exact ha
        · exact hpre y hy
    · right
      exact ⟨[], a, t, rfl, by simp, ha⟩

theorem pySlice_full (data : List Char) : pySlice data 0 data.length = data := by
  simp [pySlice]

theorem startState_strong (data : List Char) : strongInv (startState data) 0 :=
  Or.inl ⟨rfl, rfl, rfl, rfl⟩

theorem feed_coverage (data : List Char) (toks : List Tok)
    (hv : validTok data toks = true)
    (hsafe : imgSafe (startState data) (eventsOf data toks) = true)
    (s2 : MarkdownSplitParser)
    (hfd : feedFresh data (eventsOf data toks) = .ok s2) :
    spanChain4 0 s2.splitlist = some data.length ∧
    spansText s2.splitlist = data := by
  cases hrunc : runEvents (startState data) (eventsOf data toks) with
  | error err =>
    have hr2 : runEvents (⟨[], [], false, false, data⟩ : MarkdownSplitParser)
        (eventsOf data toks) = .error err := hrunc
    have hfv : feedFresh data (eventsOf data toks) = .error err := by
      simp [feedFresh, feed, newParser, freshClass, hr2, pure,
        Except.pure, Except.instMonad, Except.bind]
    rw [hfv] at hfd
    exact Except.noConfusion hfd
  | ok sfin =>
    have hr2 : runEvents (⟨[], [], false, false, data⟩ : MarkdownSplitParser)
        (eventsOf data toks) = .ok sfin := hrunc
    obtain ⟨hstrong, hdata⟩ := strong_run data toks 0 (startState data) rfl hv
      hsafe (startState_strong data) sfin hrunc
    rcases hstrong with hi | ho | hd
    · -- idle at the end: every span closed, chain covers [0, L)
      obtain ⟨hot, hdg, hsg, hch⟩ := hi
      rcases List.eq_nil_or_concat sfin.splitlist with hnil | ⟨init, lst, hconc⟩
      · have hfeedval : feedFresh data (eventsOf data toks) = .error .indexError := by
          simp [feedFresh, feed, newParser, freshClass, hr2, hnil, pure,
            Except.pure, Except.instMonad, Except.bind]
        rw [hfeedval] at hfd
        exact Except.noConfusion hfd
      · rw [List.concat_eq_append] at hconc
        have hcl : ∀ sp ∈ sfin.splitlist, closedSpan sp :=
          chainEnd_closed sfin.splitlist 0 data.length hch
        obtain ⟨k, a, b, hlst, hab⟩ := hcl lst (by rw [hconc]; simp)
        have hlen3 : lst.length = 3 := by rw [hlst]; rfl
        have hTL : textLoop data sfin.splitlist.length sfin.splitlist 0 0 =
            .ok (sfin.splitlist.map (texAp data)) := by
          have := textLoop_ok data sfin.splitlist hcl sfin.splitlist.length []
            (by omega)
          simpa using this
        have hlastq : sfin.splitlist.getLast? = some lst := by
          rw [hconc]; exact List.getLast?_concat _
        have hne2 : ¬(lst.length = 2) := by omega
        have hfeedval : feedFresh data (eventsOf data toks) =
            .ok { sfin with splitlist := sfin.splitlist.map (texAp data) } := by
          simp [feedFresh, feed, newParser, freshClass, hr2, hlastq, hne2,
            hTL, pure, Except.pure, Except.instMonad, Except.bind]
        rw [hfeedval] at hfd
        obtain rfl : _ = s2 := Except.ok.inj hfd
        exact ⟨chain_map_texAp data sfin.splitlist 0 data.length hch,
          by rw [chain_text data sfin.splitlist 0 data.length hch, pySlice_full]⟩
    · -- still-open last span: closed at length(data) by the feed epilogue
      obtain ⟨init, k, a, hsl, hch, ha, _⟩ := ho
      have hchainfull : chainEnd 0
          (init ++ [([PyElem.s k, PyElem.n a, PyElem.n data.length] : RawSpan)]) =
          some data.length := by
        rw [chainEnd_append, hch]
        simp [chainEnd, spanCAB, ha]
      have hcl : ∀ sp ∈
          init ++ [([PyElem.s k, PyElem.n a, PyElem.n data.length] : RawSpan)],
          closedSpan sp :=
        chainEnd_closed _ 0 data.length hchainfull
      have hTL := textLoop_ok data
        (init ++ [([PyElem.s k, PyElem.n a, PyElem.n data.length] : RawSpan)])
        hcl
        (init ++ [([PyElem.s k, PyElem.n a, PyElem.n data.length] : RawSpan)]).length
        [] (by omega)
      simp only [List.nil_append, List.length_nil, List.length_append,
        List.length_cons] at hTL
      have hfeedval : feedFresh data (eventsOf data toks) =
          .ok { sfin with splitlist :=
            (init ++ [([PyElem.s k, PyElem.n a, PyElem.n data.length] :
              RawSpan)]).map (texAp data) } := by
        simp [feedFresh, feed, newParser, freshClass, hr2, hsl,
          List.getLast?_concat, appendLast_snoc, hTL, pure, Except.pure,
          Except.instMonad, Except.bind]
      rw [hfeedval] at hfd
      obtain rfl : _ = s2 := Except.ok.inj hfd
      constructor
      · simpa using chain_map_texAp data _ 0 data.length hchainfull
      · have hct := chain_text data _ 0 data.length hchainfull
        rw [pySlice_full] at hct
        simpa using hct
    · -- doomed: the text loop must raise, contradicting success
      obtain ⟨l1, k0, a0, l2, hsl, hl2, hcl⟩ := hd
      exfalso
      rcases List.eq_nil_or_concat l2 with rfl | ⟨l2a, lst, hdec⟩
      · exact hl2 rfl
      rw [List.concat_eq_append] at hdec
      subst hdec
      have hlastq : sfin.splitlist.getLast? = some lst := by
        rw [hsl]
        have hre : l1 ++ ([.s k0, .n a0] : RawSpan) :: (l2a ++ [lst]) =
            (l1 ++ ([.s k0, .n a0] : RawSpan) :: l2a) ++ [lst] := by simp
        rw [hre, List.getLast?_concat]
      by_cases hlst2 : lst.length = 2
      · obtain ⟨l2b, hap, hl2b⟩ := doomedList_appendLast l1 k0 a0
          (l2a ++ [lst]) (by simp) (.n data.length)
        have hap2 : appendLast sfin.splitlist (PyElem.n data.length) =
            .ok (l1 ++ ([.s k0, .n a0] : RawSpan) :: l2b) := by
          rw [hsl]; exact hap
        have hTLerr : textLoop data
            (l1 ++ ([.s k0, .n a0] : RawSpan) :: l2b).length
            (l1 ++ ([.s k0, .n a0] : RawSpan) :: l2b) 0 0 =
            .error .indexError := by
          have := textLoop_err data k0 a0 l2b l1
            (l1 ++ ([.s k0, .n a0] : RawSpan) :: l2b).length [] hcl (by simp)
          simpa using this
        simp only [List.length_append, List.length_cons] at hTLerr
        have hfeedval : feedFresh data (eventsOf data toks) =
            .error .indexError := by
          simp [feedFresh, feed, newParser, freshClass, hr2, hlastq, hlst2,
            hap2, hTLerr, pure, Except.pure, Except.instMonad, Except.bind]
        rw [hfeedval] at hfd
        exact Except.noConfusion hfd
      · have hTLerr : textLoop data
            (l1 ++ ([.s k0, .n a0] : RawSpan) :: (l2a ++ [lst])).length
            (l1 ++ ([.s k0, .n a0] : RawSpan) :: (l2a ++ [lst])) 0 0 =
            .error .indexError := by
          have := textLoop_err data k0 a0 (l2a ++ [lst]) l1
            (l1 ++ ([.s k0, .n a0] : RawSpan) :: (l2a ++ [lst])).length []
            hcl (by simp)
          simpa using this
        have hTLerr2 : textLoop data sfin.splitlist.length sfin.splitlist
            0 0 = .error .indexError := by
          rw [hsl]; exact hTLerr
        have hfeedval : feedFresh data (eventsOf data toks) =
            .error .indexError := by
          simp [feedFresh, feed, newParser, freshClass, hr2, hlastq, hlst2,
            hTLerr2, pure, Except.pure, Except.instMonad, Except.bind]
        rw [hfeedval] at hfd
        exact Except.noConfusion hfd

theorem textLoop_shape_or_err (data : List Char) (l2 : List RawSpan)
    (hspans : ∀ sp ∈ l2, properSpan sp ∨ openSpanLt data.length sp) :
    (textLoop data l2.length l2 0 0 = .ok (l2.map (texAp data)) ∧
      ∀ sp ∈ l2.map (texAp data), finalShape data sp) ∨
    textLoop data l2.length l2 0 0 = .error .indexError := by
  rcases list_all_or_first_bad properSpan l2 with hall | ⟨b1, x, b2, hdec, hpre, hbad⟩
  · left
    have hcl : ∀ sp ∈ l2, closedSpan sp := by
      intro sp h
      obtain ⟨k, a, b, he, lt, _⟩ := hall sp h
      exact ⟨k, a, b, he, lt⟩
    have hTL := textLoop_ok data l2 hcl l2.length [] (by omega)
    simp only [List.nil_append, List.length_nil] at hTL
    refine ⟨hTL, ?_⟩
    intro sp hsp
    obtain ⟨q, hq, rfl⟩ := List.mem_map.mp hsp
    obtain ⟨k, a, b, hqe, hab, hk⟩ := hall q hq
    rw [hqe]
    exact ⟨k, a, b, rfl, hab, hk⟩
  · right
    rcases hspans x (by rw [hdec]; simp) with hp | ho
    · exact absurd hp hbad
    · obtain ⟨k, a, hx, _, _⟩ := ho
      have hcl1 : ∀ sp ∈ b1, closedSpan sp := by
        intro sp h
        obtain ⟨k2, a2, b2x, he, lt, _⟩ := hpre sp h
        exact ⟨k2, a2, b2x, he, lt⟩
      have hlen : b1.length + 1 ≤ l2.length := by
        rw [hdec]
        simp
      have := textLoop_err data k a b2 b1 l2.length [] hcl1 hlen
      simp only [List.nil_append, List.length_nil] at this
      rw [hdec, hx]
      rw [hdec, hx] at this
      exact this

theorem feed_shape (data : List Char) (toks : List Tok)
    (hv : validTok data toks = true) (s2 : MarkdownSplitParser)
    (hfd : feedFresh data (eventsOf data toks) = .ok s2) :
    ∀ sp ∈ s2.splitlist, finalShape data sp := by
  cases hrunc : runEvents (startState data) (eventsOf data toks) with
  | error err =>
    have hr2 : runEvents (⟨[], [], false, false, data⟩ : MarkdownSplitParser)
        (eventsOf data toks) = .error err := hrunc
    have hfv : feedFresh data (eventsOf data toks) = .error err := by
      simp [feedFresh, feed, newParser, freshClass, hr2, pure, Except.pure,
        Except.instMonad, Except.bind]
    rw [hfv] at hfd
    exact Except.noConfusion hfd
  | ok sfin =>
    have hr2 : runEvents (⟨[], [], false, false, data⟩ : MarkdownSplitParser)
        (eventsOf data toks) = .ok sfin := hrunc
    obtain ⟨hwk, hdata⟩ := wkInv_run data toks 0 (startState data) rfl hv
      (wkInv_start data) sfin hrunc
    rcases List.eq_nil_or_concat sfin.splitlist with hnil | ⟨init, lst, hconc⟩
    · have hfv : feedFresh data (eventsOf data toks) = .error .indexError := by
        simp [feedFresh, feed, newParser, freshClass, hr2, hnil, pure,
          Except.pure, Except.instMonad, Except.bind]
      rw [hfv] at hfd
      exact Except.noConfusion hfd
    · rw [List.concat_eq_append] at hconc
      have hlastq : sfin.splitlist.getLast? = some lst := by
        rw [hconc]; exact List.getLast?_concat _
      by_cases hlst2 : lst.length = 2
      · have hlmem := hwk.1 lst (by rw [hconc]; simp)
        have hlopen : openSpanLt data.length lst := by
          rcases hlmem with hp | ho
          · obtain ⟨k, a, b, hsp, _, _⟩ := hp
            rw [hsp] at hlst2
            simp at hlst2
          · exact ho
        obtain ⟨k, a, hlsp, haL, hkind⟩ := hlopen
        have hap2 : appendLast sfin.splitlist (PyElem.n data.length) =
            .ok (init ++
              [([PyElem.s k, PyElem.n a, PyElem.n data.length] : RawSpan)]) := by
          rw [hconc, hlsp]
          exact appendLast_snoc init _ _
        have hspans : ∀ sp ∈ init ++
            [([PyElem.s k, PyElem.n a, PyElem.n data.length] : RawSpan)],
            properSpan sp ∨ openSpanLt data.length sp := by
          intro sp hsp
          rcases List.mem_append.mp hsp with hsp | hsp
          · exact hwk.1 sp (by rw [hconc]; exact List.mem_append_left _ hsp)
          · rw [List.mem_singleton.mp hsp]
            exact Or.inl ⟨k, a, data.length, rfl, haL, hkind⟩
        rcases textLoop_shape_or_err data
          (init ++ [([PyElem.s k, PyElem.n a, PyElem.n data.length] : RawSpan)])
          hspans with ⟨hTL, hshape⟩ | hTLerr
        · simp only [List.length_append, List.length_cons, List.length_nil] at hTL
          have hfeedval : feedFresh data (eventsOf data toks) =
              .ok { sfin with splitlist :=
                (init ++ [([PyElem.s k, PyElem.n a, PyElem.n data.length] :
                  RawSpan)]).map (texAp data) } := by
            simp [feedFresh, feed, newParser, freshClass, hr2, hlastq, hlst2,
              hap2, hTL, pure, Except.pure, Except.instMonad, Except.bind]
          rw [hfeedval] at hfd
          obtain rfl : _ = s2 := Except.ok.inj hfd
          intro sp hsp
          apply hshape
          simpa using hsp
        · simp only [List.length_append, List.length_cons, List.length_nil] at hTLerr
          have hfeedval : feedFresh data (eventsOf data toks) =
              .error .indexError := by
            simp [feedFresh, feed, newParser, freshClass, hr2, hlastq, hlst2,
              hap2, hTLerr, pure, Except.pure, Except.instMonad, Except.bind]
          rw [hfeedval] at hfd
          exact Except.noConfusion hfd
      · have hspans : ∀ sp ∈ sfin.splitlist,
            properSpan sp ∨ openSpanLt data.length sp := hwk.1
        rcases textLoop_shape_or_err data sfin.splitlist hspans with
          ⟨hTL, hshape⟩ | hTLerr
        · have hfeedval : feedFresh data (eventsOf data toks) =
              .ok { sfin with splitlist := sfin.splitlist.map (texAp data) } := by
            simp [feedFresh, feed, newParser, freshClass, hr2, hlastq, hlst2,
              hTL, pure, Except.pure, Except.instMonad, Except.bind]
          rw [hfeedval] at hfd
          obtain rfl : _ = s2 := Except.ok.inj hfd
          intro sp hsp
          apply hshape
          simpa using hsp
        · have hfeedval : feedFresh data (eventsOf data toks) =
              .error .indexError := by
            simp [feedFresh, feed, newParser, freshClass, hr2, hlastq, hlst2,
              hTLerr, pure, Except.pure, Except.instMonad, Except.bind]
          rw [hfeedval] at hfd
          exact Except.noConfusion hfd

theorem feed_endtag_err (s0 : MarkdownSplitParser) (data : List Char)
    (es1 es2 : List Event) (tag : List Char) (lin col : Nat)
    (s1 : MarkdownSplitParser)
    (h1 : runEvents { s0 with data := data } es1 = .ok s1)
    (hot : s1.opentags = []) :
    feed s0 data (es1 ++ Event.endtag tag lin col :: es2) = .error .indexError := by
  have hrun : runEvents { s0 with data := data }
      (es1 ++ Event.endtag tag lin col :: es2) = .error .indexError := by
    rw [runEvents_append, h1]
    have hstep : step s1 (Event.endtag tag lin col) = .error .indexError := by
      simp [step, handle_endtag, hot, pyPop, pure, Except.pure,
        Except.instMonad, Except.bind]
    simp [runEvents, hstep, pure, Except.pure, Except.instMonad, Except.bind]
  simp [feed, hrun, pure, Except.pure, Except.instMonad, Except.bind]

theorem handle_data_noop (s : MarkdownSplitParser) (lin col : Nat)
    (hdg : s.datag = true) : handle_data s lin col = .ok s := by
  simp only [handle_data]
  split
  · rename_i hc
    rw [hdg] at hc
    simp at hc
  · rfl

theorem allText_run (data : List Char) (toks : List Tok)
    (htext : ∀ t ∈ toks, ∃ w, t = Tok.textT w) :
    ∀ (p : Nat) (s : MarkdownSplitParser), s.datag = true →
      runEvents s (eventsAux data p toks) = .ok s := by
  induction toks with
  | nil => intro p s _; rfl
  | cons t ts ih =>
    intro p s hdg
    obtain ⟨w, rfl⟩ := htext t (by simp)
    simp only [eventsAux, runEvents, step]
    rw [handle_data_noop s _ _ hdg]
    exact ih (fun q hq => htext q (by simp [hq])) (p + Tok.width (Tok.textT w)) s hdg

theorem dispatch_shape (f g : List Char → List Char) (data : List Char) :
    ∀ (l : List RawSpan), (∀ sp ∈ l, finalShape data sp) →
      extended_markdown2latex f g l = .ok (specConcat f g l) := by
  intro l
  induction l with
  | nil => intro _; rfl
  | cons sp t ih =>
    intro hsh
    obtain ⟨k, a, b, hsp, hab, hk⟩ := hsh sp (by simp)
    subst hsp
    have iht := ih (fun q hq => hsh q (by simp [hq]))
    rcases hk with rfl | rfl
    · simp [extended_markdown2latex, specConcat, spanKABT, List.get?, iht,
        pure, Except.pure, Except.instMonad, Except.bind]
    · have hne : ¬((PyElem.s "html".data) = PyElem.s "markdown".data) := by
        decide
      simp [extended_markdown2latex, specConcat, spanKABT, List.get?, iht,
        hne, pure, Except.pure, Except.instMonad, Except.bind]

/-! ### The claims -/

/-- C1 (amended): for every source string and valid tokenization on which
`feed` completes without raising and in which no `<img>` start-tag event is
encountered at depth 0 while nothing is open (the source's `img` special
case leaves a coverage gap there), the produced span list is a partition of
the source: the 4-element spans are contiguous from offset 0 to
`length(source)` with `start < end`, and concatenating their text fields
reconstructs the source exactly. -/
theorem C1_coverage (data : List Char) (toks : List Tok)
    (s2 : MarkdownSplitParser)
    (hv : validTok data toks = true)
    (hsafe : imgSafe (startState data) (eventsOf data toks) = true)
    (hfd : feedFresh data (eventsOf data toks) = .ok s2) :
    spanChain4 0 s2.splitlist = some data.length ∧
    spansText s2.splitlist = data :=
  feed_coverage data toks hv hsafe s2 hfd

/-- C1 counterexample: the claim as stated fails on the source string
`"<img>x"` (a stray top-level `<img>` start tag): `feed` completes and
produces a single span `[5, 6)`, which does not start at 0 and whose texts
do not reconstruct the source, so the span list is not a partition. -/
theorem C1_coverage_counterexample :
    validTok "<img>x".data [Tok.startT "img".data 5, Tok.textT 1] = true ∧
    (feedFresh "<img>x".data (eventsOf "<img>x".data
      [Tok.startT "img".data 5, Tok.textT 1])).map (·.splitlist) =
      .ok [[.s "markdown".data, .n 5, .n 6, .s "x".data]] ∧
    spanChain4 0 [[PyElem.s "markdown".data, PyElem.n 5, PyElem.n 6,
      PyElem.s "x".data]] = none ∧
    spansText [[PyElem.s "markdown".data, PyElem.n 5, PyElem.n 6,
      PyElem.s "x".data]] ≠ "<img>x".data := by
  exact ⟨rfl, rfl, rfl, by decide⟩

/-- C1 witness: the amended coverage theorem applied to the concrete source
`"a<br/>b"`. -/
theorem C1_coverage_witness :
    spanChain4 0 [[PyElem.s "markdown".data, PyElem.n 0, PyElem.n 1,
        PyElem.s "a".data],
      [PyElem.s "html".data, PyElem.n 1, PyElem.n 6, PyElem.s "<br/>".data],
      [PyElem.s "markdown".data, PyElem.n 6, PyElem.n 7, PyElem.s "b".data]] =
      some 7 ∧
    spansText [[PyElem.s "markdown".data, PyElem.n 0, PyElem.n 1,
        PyElem.s "a".data],
      [PyElem.s "html".data, PyElem.n 1, PyElem.n 6, PyElem.s "<br/>".data],
      [PyElem.s "markdown".data, PyElem.n 6, PyElem.n 7, PyElem.s "b".data]] =
      "a<br/>b".data :=
  C1_coverage "a<br/>b".data
    [Tok.textT 1, Tok.startendT "br".data 5, Tok.textT 1]
    { opentags := [],
      splitlist := [[PyElem.s "markdown".data, PyElem.n 0, PyElem.n 1,
          PyElem.s "a".data],
        [PyElem.s "html".data, PyElem.n 1, PyElem.n 6, PyElem.s "<br/>".data],
        [PyElem.s "markdown".data, PyElem.n 6, PyElem.n 7, PyElem.s "b".data]],
      setag := false, datag := true, data := "a<br/>b".data }
    rfl rfl rfl

/-- C2: the code violates the claim: `opentags` and `splitlist` are class
attributes of `MarkdownSplitParser`, so splitting is not a pure function of
the input.  Two successive invocations of `extended_markdown2latex`'s
splitting step on the same source `"a"` (each with a fresh parser instance
over the shared class state) return different span lists: the second result
still contains the first invocation's span, mutated with a duplicated text
field. -/
theorem C2_shared_state :
    eventsOf "a".data [Tok.textT 1] = [Event.dataEv 1 0] ∧
    validTok "a".data [Tok.textT 1] = true ∧
    invoke freshClass "a".data [Event.dataEv 1 0] =
      .ok (⟨[], [[.s "markdown".data, .n 0, .n 1, .s "a".data]]⟩,
        [[.s "markdown".data, .n 0, .n 1, .s "a".data]]) ∧
    invoke ⟨[], [[.s "markdown".data, .n 0, .n 1, .s "a".data]]⟩ "a".data
      [Event.dataEv 1 0] =
      .ok (⟨[], [[.s "markdown".data, .n 0, .n 1, .s "a".data, .s "a".data],
          [.s "markdown".data, .n 0, .n 1, .s "a".data]]⟩,
        [[.s "markdown".data, .n 0, .n 1, .s "a".data, .s "a".data],
          [.s "markdown".data, .n 0, .n 1, .s "a".data]]) ∧
    ([[PyElem.s "markdown".data, PyElem.n 0, PyElem.n 1, PyElem.s "a".data,
        PyElem.s "a".data],
      [PyElem.s "markdown".data, PyElem.n 0, PyElem.n 1, PyElem.s "a".data]] :
      List RawSpan) ≠
      [[PyElem.s "markdown".data, PyElem.n 0, PyElem.n 1, PyElem.s "a".data]] := by
  exact ⟨rfl, rfl, rfl, rfl, by decide⟩

/-- C3: every span emitted by a successful `feed` is a 4-element record
`[kind, start, end, text]` with `start ≠ end`, `text = source[start:end]`
(Python slicing), and kind `markdown` or `html`; in particular no emitted
span is empty, and nothing is dropped or reordered on the successful path
(empty spans never arise for a fresh parser on a valid tokenization). -/
theorem C3_emitted_spans (data : List Char) (toks : List Tok)
    (s2 : MarkdownSplitParser)
    (hv : validTok data toks = true)
    (hfd : feedFresh data (eventsOf data toks) = .ok s2) :
    ∀ sp ∈ s2.splitlist, ∃ k a b,
      sp = [.s k, .n a, .n b, .s (pySlice data a b)] ∧ a ≠ b ∧ kindOK k := by
  intro sp hsp
  obtain ⟨k, a, b, hshape, hab, hk⟩ := feed_shape data toks hv s2 hfd sp hsp
  exact ⟨k, a, b, hshape, by omega, hk⟩

/-- C3 witness: the span-shape theorem applied to the concrete source
`"x<div>y</div>"` at its first emitted span. -/
theorem C3_emitted_spans_witness :
    ∃ k a b, ([PyElem.s "markdown".data, PyElem.n 0, PyElem.n 1,
      PyElem.s "x".data] : RawSpan) =
      [.s k, .n a, .n b, .s (pySlice "x<div>y</div>".data a b)] ∧
      a ≠ b ∧ kindOK k :=
  C3_emitted_spans "x<div>y</div>".data
    [Tok.textT 1, Tok.startT "div".data 5, Tok.textT 1, Tok.endT "div".data]
    { opentags := [],
      splitlist := [[PyElem.s "markdown".data, PyElem.n 0, PyElem.n 1,
          PyElem.s "x".data],
        [PyElem.s "html".data, PyElem.n 1, PyElem.n 13,
          PyElem.s "<div>y</div>".data]],
      setag := false, datag := false, data := "x<div>y</div>".data }
    rfl rfl
    [PyElem.s "markdown".data, PyElem.n 0, PyElem.n 1, PyElem.s "x".data]
    (by simp)

/-- C4: an end-tag event delivered while the open-tag stack is empty (an
unmatched closing tag at nesting depth 0) makes `feed` fail: the source's
`self.opentags.pop()` raises IndexError, realising the "fail on truly
unbalanced input" policy sanctioned by the spec (the failure is Python's
IndexError rather than a dedicated MalformedMarkupError class, and the
split never completes). -/
theorem C4_unmatched_endtag (s0 : MarkdownSplitParser) (data : List Char)
    (es1 es2 : List Event) (tag : List Char) (lin col : Nat)
    (s1 : MarkdownSplitParser)
    (h1 : runEvents { s0 with data := data } es1 = .ok s1)
    (hot : s1.opentags = []) :
    feed s0 data (es1 ++ Event.endtag tag lin col :: es2) =
      .error .indexError :=
  feed_endtag_err s0 data es1 es2 tag lin col s1 h1 hot

/-- C4 witness: feeding the single unmatched closing tag of `"</div>"`
raises immediately. -/
theorem C4_unmatched_endtag_witness :
    feed (newParser freshClass) "</div>".data
      [Event.endtag "div".data 1 0] = .error .indexError :=
  C4_unmatched_endtag (newParser freshClass) "</div>".data [] []
    "div".data 1 0 (startState "</div>".data) rfl rfl

/-- C5: splitting `"before<div>inside</div>after"` yields exactly three
spans in order: markdown "before" on [0,6), html "<div>inside</div>" on
[6,23), markdown "after" on [23,28), with boundaries exactly at the
substring positions. -/
theorem C5_mixed_example :
    validTok "before<div>inside</div>after".data
      [Tok.textT 6, Tok.startT "div".data 5, Tok.textT 6,
        Tok.endT "div".data, Tok.textT 5] = true ∧
    (feedFresh "before<div>inside</div>after".data
      (eventsOf "before<div>inside</div>after".data
        [Tok.textT 6, Tok.startT "div".data 5, Tok.textT 6,
          Tok.endT "div".data, Tok.textT 5])).map (·.splitlist) =
      .ok [[.s "markdown".data, .n 0, .n 6, .s "before".data],
        [.s "html".data, .n 6, .n 23, .s "<div>inside</div>".data],
        [.s "markdown".data, .n 23, .n 28, .s "after".data]] := by
  exact ⟨rfl, rfl⟩

/-- C6: splitting `"a<br/>b"` yields markdown "a", html "<br/>", markdown
"b": the self-closing tag closes the pending markdown run at its start
offset, forms its own html region, and that region's end is finalized at
the next event's offset. -/
theorem C6_selfclosing_example :
    validTok "a<br/>b".data
      [Tok.textT 1, Tok.startendT "br".data 5, Tok.textT 1] = true ∧
    (feedFresh "a<br/>b".data
      (eventsOf "a<br/>b".data
        [Tok.textT 1, Tok.startendT "br".data 5, Tok.textT 1])).map
      (·.splitlist) =
      .ok [[.s "markdown".data, .n 0, .n 1, .s "a".data],
        [.s "html".data, .n 1, .n 6, .s "<br/>".data],
        [.s "markdown".data, .n 6, .n 7, .s "b".data]] := by
  exact ⟨rfl, rfl⟩

/-- C7 (amended): for every *nonempty* source string with no HTML tags (any
valid tokenization consisting solely of data events), splitting yields
exactly one markdown span covering the whole string. -/
theorem C7_pure_markdown (data : List Char) (toks : List Tok)
    (hv : validTok data toks = true)
    (htext : ∀ t ∈ toks, ∃ w, t = Tok.textT w) (hne : data ≠ []) :
    (feedFresh data (eventsOf data toks)).map (·.splitlist) =
      .ok [[.s "markdown".data, .n 0, .n data.length, .s data]] := by
  cases toks with
  | nil =>
    exfalso
    simp only [validTok, validToksFrom, decide_eq_true_eq] at hv
    exact hne (List.length_eq_zero.mp hv.symm)
  | cons t ts =>
    obtain ⟨w, rfl⟩ := htext t (by simp)
    have hstep : handle_data (startState data) (lineAt data 0) (colAt data 0) =
        .ok (⟨[], [[.s "markdown".data, .n 0]], false, true, data⟩ :
          MarkdownSplitParser) := by
      simp [handle_data, startState, newParser, freshClass, get_offset,
        lineAt, colAt, getOffsetLoop, pure, Except.pure, Except.instMonad,
        Except.bind]
    have hrun : runEvents (startState data)
        (eventsOf data (Tok.textT w :: ts)) =
        .ok (⟨[], [[.s "markdown".data, .n 0]], false, true, data⟩ :
          MarkdownSplitParser) := by
      simp only [eventsOf, eventsAux, runEvents, step]
      rw [hstep]
      exact allText_run data ts (fun q hq => htext q (by simp [hq]))
        (0 + Tok.width (Tok.textT w))
        (⟨[], [[.s "markdown".data, .n 0]], false, true, data⟩ :
          MarkdownSplitParser) rfl
    have hr2 : runEvents (⟨[], [], false, false, data⟩ : MarkdownSplitParser)
        (eventsOf data (Tok.textT w :: ts)) =
        .ok (⟨[], [[.s "markdown".data, .n 0]], false, true, data⟩ :
          MarkdownSplitParser) := hrun
    have hne0 : ¬((PyElem.n 0) = PyElem.n data.length) := by
      have := List.length_pos.mpr hne
      simp
      omega
    have hfeedval : feedFresh data (eventsOf data (Tok.textT w :: ts)) =
        .ok (⟨[], [[.s "markdown".data, .n 0, .n data.length, .s data]],
          false, true, data⟩ : MarkdownSplitParser) := by
      simp [feedFresh, feed, newParser, freshClass, hr2, appendLast,
        textLoop, pyNegGet, List.get?, hne0, pySlice_full, pure, Except.pure,
        Except.instMonad, Except.bind]
    rw [hfeedval]
    rfl

/-- C7 counterexample: the claim includes the empty string, but feeding an
empty source produces no spans and `feed` then raises IndexError on
`self.splitlist[-1]`, so splitting the empty string does not yield one
whole-string markdown span. -/
theorem C7_pure_markdown_counterexample :
    validTok [] [] = true ∧
    feedFresh [] (eventsOf [] []) = .error .indexError := by
  exact ⟨rfl, rfl⟩

/-- C7 witness: the amended theorem applied to the tag-free source
`"hi"`. -/
theorem C7_pure_markdown_witness :
    (feedFresh "hi".data (eventsOf "hi".data [Tok.textT 2])).map
      (·.splitlist) =
      .ok [[.s "markdown".data, .n 0, .n 2, .s "hi".data]] :=
  C7_pure_markdown "hi".data [Tok.textT 2] rfl
    (by
      intro t ht
      rw [List.mem_singleton] at ht
      exact ⟨2, ht⟩)
    (by decide)

/-- C8: splitting `"<div><span>a</span></div>"` yields exactly one html
span covering the whole string: nested start/end tags only adjust the
depth counter and never fragment the enclosing top-level region. -/
theorem C8_nested_example :
    validTok "<div><span>a</span></div>".data
      [Tok.startT "div".data 5, Tok.startT "span".data 6, Tok.textT 1,
        Tok.endT "span".data, Tok.endT "div".data] = true ∧
    (feedFresh "<div><span>a</span></div>".data
      (eventsOf "<div><span>a</span></div>".data
        [Tok.startT "div".data 5, Tok.startT "span".data 6, Tok.textT 1,
          Tok.endT "span".data, Tok.endT "div".data])).map (·.splitlist) =
      .ok [[.s "html".data, .n 0, .n 25,
        .s "<div><span>a</span></div>".data]] := by
  exact ⟨rfl, rfl⟩

/-- C9: a non-self-closing `img` start-tag event never opens an html
region and never changes the nesting depth -- `handle_starttag` leaves the
whole parser state untouched (so an open markdown run continues across it
unbroken, as the concrete run on `"a<img>b"` shows), while an `img` written
in self-closing syntax goes through `handle_startendtag`, which treats
every tag name identically. -/
theorem C9_img_start_tag :
    (∀ (s : MarkdownSplitParser) (lin col : Nat),
      handle_starttag s "img".data lin col = .ok s) ∧
    (∀ (s : MarkdownSplitParser) (t1 t2 : List Char) (lin col : Nat),
      handle_startendtag s t1 lin col = handle_startendtag s t2 lin col) ∧
    (feedFresh "a<img>b".data (eventsOf "a<img>b".data
      [Tok.textT 1, Tok.startT "img".data 5, Tok.textT 1])).map
      (·.splitlist) =
      .ok [[.s "markdown".data, .n 0, .n 7, .s "a<img>b".data]] := by
  refine ⟨fun s lin col => rfl, fun s t1 t2 lin col => rfl, rfl⟩

/-- C10: for every span list produced by a successful split, the dispatch
loop of `extended_markdown2latex` returns, without error, exactly the
ordered concatenation of the converters' results (markdown spans through
the markdown converter, html spans through the html converter, no
separators); and a span of any other kind contributes nothing and raises
no error. -/
theorem C10_dispatch (f g : List Char → List Char) (data : List Char)
    (toks : List Tok) (s2 : MarkdownSplitParser)
    (hv : validTok data toks = true)
    (hfd : feedFresh data (eventsOf data toks) = .ok s2) :
    extended_markdown2latex f g s2.splitlist =
      .ok (specConcat f g s2.splitlist) ∧
    extended_markdown2latex f g
      [[.s "other".data, .n 0, .n 1, .s "z".data]] = .ok [] := by
  constructor
  · exact dispatch_shape f g data s2.splitlist (feed_shape data toks hv s2 hfd)
  · rfl

/-- C10 witness: the dispatch theorem applied to the split of `"a<br/>b"`
with identity converters. -/
theorem C10_dispatch_witness :
    extended_markdown2latex id id
      [[PyElem.s "markdown".data, PyElem.n 0, PyElem.n 1, PyElem.s "a".data],
        [PyElem.s "html".data, PyElem.n 1, PyElem.n 6, PyElem.s "<br/>".data],
        [PyElem.s "markdown".data, PyElem.n 6, PyElem.n 7,
          PyElem.s "b".data]] =
      .ok (specConcat id id
        [[PyElem.s "markdown".data, PyElem.n 0, PyElem.n 1, PyElem.s "a".data],
          [PyElem.s "html".data, PyElem.n 1, PyElem.n 6,
            PyElem.s "<br/>".data],
          [PyElem.s "markdown".data, PyElem.n 6, PyElem.n 7,
            PyElem.s "b".data]]) ∧
    extended_markdown2latex id id
      [[.s "other".data, .n 0, .n 1, .s "z".data]] = .ok [] :=
  C10_dispatch id id "a<br/>b".data
    [Tok.textT 1, Tok.startendT "br".data 5, Tok.textT 1]
    { opentags := [],
      splitlist := [[PyElem.s "markdown".data, PyElem.n 0, PyElem.n 1,
          PyElem.s "a".data],
        [PyElem.s "html".data, PyElem.n 1, PyElem.n 6, PyElem.s "<br/>".data],
        [PyElem.s "markdown".data, PyElem.n 6, PyElem.n 7,
          PyElem.s "b".data]],
      setag := false, datag := true, data := "a<br/>b".data }
    rfl rfl
